import Mathlib

/-!
Email-summary: the ingestion and classification pipeline of `script.js`.

A shallow embedding of the pure core of `src/script.js` (`processEmail`,
`extractBodyFromParts`, `determinePriority`, `generateSummary`, `extractKeyPoints`
and the filter-and-sort of `applyFilters`), followed by the properties proved of it.

Conventions of the embedding.

* A JavaScript string is the list of its UTF-16 code units; a code unit is written as
  the `Char` with that code, so `.length` is `List.length`.
* Built-ins whose behaviour is fixed by a standard are written out (`atob`, `trim`,
  `split` on `/[.!?]+/`, `includes`, `slice`, `join`, `filter`).  Built-ins whose
  behaviour depends on large tables or on the engine (`toLowerCase`, `Date` parsing)
  are parameters of the functions that call them.
* An exception is a value of `Except JSError`.
* An instant is the time value of a `Date` in milliseconds; `none` is the time value
  `NaN` of an Invalid Date.
-/

namespace EmailSummary

/-! ## Strings -/

/-- A JavaScript string, as the list of its code units. -/
abbrev JSString := List Char

/-- The method `String.prototype.includes`: does `kw` occur in `s` as a contiguous run? -/
def includes : JSString → JSString → Bool
  | [], kw => kw.isPrefixOf []
  | c :: cs, kw => kw.isPrefixOf (c :: cs) || includes cs kw

/-! ## Raw messages -/

/-- One header entry of a message payload. -/
structure Header where
  name : JSString
  value : JSString
  deriving DecidableEq, Repr

/-- A node of the MIME part tree: `mimeType`, `body.data` and `parts`
(`none` where the property is absent). -/
inductive Part where
  | mk (mimeType : JSString) (data : Option JSString) (parts : Option (List Part)) : Part

/-- The payload of a message: `headers`, `body.data` and `parts`. -/
structure Payload where
  headers : List Header
  data : Option JSString
  parts : Option (List Part)

/-- The message object handed to `processEmail`. -/
structure RawMessage where
  id : JSString
  threadId : JSString
  labelIds : Option (List JSString)
  payload : Payload

/-- The expression `message.labelIds?.includes(label)` read as a condition:
absent `labelIds` gives `undefined`, which is falsy. -/
def hasLabel (labelIds : Option (List JSString)) (label : JSString) : Bool :=
  match labelIds with
  | none => false
  | some ls => ls.contains label

/-! ## Priority -/

/-- The four values `determinePriority` returns: the strings
`'spam'`, `'low'`, `'medium'`, `'high'`. -/
inductive Priority where
  | spam
  | low
  | medium
  | high
  deriving DecidableEq, Repr

/-- The array `urgentKeywords` of `determinePriority`. -/
def urgentKeywords : List JSString :=
  ["urgent".toList, "asap".toList, "emergency".toList, "deadline".toList, "important".toList]

/-- The array `promotionalKeywords` of `determinePriority`. -/
def promotionalKeywords : List JSString :=
  ["sale".toList, "discount".toList, "offer".toList, "promotion".toList, "newsletter".toList]

/-- The function `determinePriority(subject, from, body, message)`; `toLowerCase` is the
built-in `String.prototype.toLowerCase`, and of `message` only `labelIds` is read. -/
def determinePriority (toLowerCase : JSString → JSString)
    (subject _from body : JSString) (labelIds : Option (List JSString)) : Priority :=
  if hasLabel labelIds "SPAM".toList then Priority.spam
  else if hasLabel labelIds "IMPORTANT".toList then Priority.high
  else
    let urgentInSubject := urgentKeywords.any (fun keyword => includes (toLowerCase subject) keyword)
    let urgentInBody := urgentKeywords.any (fun keyword => includes (toLowerCase body) keyword)
    if urgentInSubject || urgentInBody then Priority.high
    else
      let isPromotional := promotionalKeywords.any (fun keyword =>
        includes (toLowerCase subject) keyword || includes (toLowerCase body) keyword)
      if isPromotional then Priority.low
      else Priority.medium

/-! ## Summaries -/

/-- The class `[.!?]` of the regular expression `/[.!?]+/`. -/
def isDelimiter (c : Char) : Bool := c == '.' || c == '!' || c == '?'

/-- The code units `String.prototype.trim` strips: the WhiteSpace and LineTerminator
productions of ECMAScript. -/
def isWhiteSpace (c : Char) : Bool :=
  let n := c.toNat
  n == 0x09 || n == 0x0A || n == 0x0B || n == 0x0C || n == 0x0D || n == 0x20 || n == 0xA0
    || n == 0x1680 || (0x2000 ≤ n && n ≤ 0x200A) || n == 0x2028 || n == 0x2029
    || n == 0x202F || n == 0x205F || n == 0x3000 || n == 0xFEFF

/-- The method `String.prototype.trim`. -/
def trim (s : JSString) : JSString :=
  (s.dropWhile isWhiteSpace).rdropWhile isWhiteSpace

/-- The pieces of `s` after the position reached, for `s.split(/[.!?]+/)`; `inRun` says
that the code unit just before was a delimiter, so that a further delimiter extends the
same match and opens no new piece. -/
def splitFrom : Bool → JSString → List JSString
  | _, [] => [[]]
  | inRun, c :: cs =>
    if isDelimiter c then
      if inRun then splitFrom true cs else [] :: splitFrom true cs
    else
      match splitFrom false cs with
      | p :: ps => (c :: p) :: ps
      | [] => [[c]]

/-- The call `body.split(/[.!?]+/)`: the pieces between the maximal runs of delimiters,
with an empty piece before a leading run and after a trailing one; `[""]` for `""`. -/
def splitSentences (body : JSString) : List JSString := splitFrom false body

/-- The method `Array.prototype.slice(start, stop)` for indices `0 ≤ start ≤ stop`. -/
def slice {α : Type} (xs : List α) (start stop : Nat) : List α :=
  (xs.drop start).take (stop - start)

/-- The method `Array.prototype.join(sep)` on an array of strings. -/
def join (xs : List JSString) (sep : JSString) : JSString := sep.intercalate xs

/-- The fallback string of `generateSummary`. -/
def placeholder : JSString := "No summary available for this email.".toList

/-- The function `generateSummary(body, subject)`; `subject` is not read.  The last line
is `summary || placeholder`: the placeholder is taken when `summary` is the empty string. -/
def generateSummary (body : JSString) : JSString :=
  let sentences := (splitSentences body).filter (fun s => decide ((trim s).length > 20))
  let summary := join (slice sentences 0 2) ". ".toList ++ ".".toList
  if summary.isEmpty then placeholder else summary

/-- The function `extractKeyPoints(body, subject)`; `subject` is not read. -/
def extractKeyPoints (body : JSString) : List JSString :=
  let sentences := (splitSentences body).filter (fun s => decide ((trim s).length > 10))
  ((slice sentences 2 5).map trim).filter (fun s => decide (s.length > 0))

/-- The example body of the specification's testable properties. -/
def specBody : JSString :=
  ("Short. This is a qualifying sentence over twenty chars. Another qualifying one here now. "
    ++ "Third one goes here too. Fourth sentence present. Fifth sentence also present.").toList

/-! ## Decoding the body -/

/-- The exceptions the embedded code can raise: the `InvalidCharacterError` of `atob`. -/
inductive JSError where
  | invalidCharacter
  deriving DecidableEq, Repr

deriving instance DecidableEq for Except

/-- ASCII whitespace, which `atob` removes before decoding. -/
def isAsciiWhitespace (c : Char) : Bool :=
  let n := c.toNat
  n == 0x09 || n == 0x0A || n == 0x0C || n == 0x0D || n == 0x20

/-- The value of a code unit of the Base64 alphabet `A-Z a-z 0-9 + /`. -/
def base64Value (c : Char) : Option Nat :=
  let n := c.toNat
  if 65 ≤ n ∧ n ≤ 90 then some (n - 65)
  else if 97 ≤ n ∧ n ≤ 122 then some (n - 97 + 26)
  else if 48 ≤ n ∧ n ≤ 57 then some (n - 48 + 52)
  else if n = 43 then some 62
  else if n = 47 then some 63
  else none

/-- Removal of one or two trailing `=` from data whose length is a multiple of four. -/
def stripPadding (s : JSString) : JSString :=
  if s.length % 4 = 0 then
    match s.reverse with
    | '=' :: '=' :: r => r.reverse
    | '=' :: r => r.reverse
    | _ => s
  else s

/-- The bytes a sequence of six-bit values stands for: three bytes for each four values,
then one byte for two left-over values and two bytes for three. -/
def decodeSextets : List Nat → List Nat
  | a :: b :: c :: d :: rest =>
    let n := a * 262144 + b * 4096 + c * 64 + d
    (n / 65536) :: (n / 256 % 256) :: (n % 256) :: decodeSextets rest
  | [a, b, c] =>
    let n := (a * 4096 + b * 64 + c) / 4
    [n / 256, n % 256]
  | [a, b] => [(a * 64 + b) / 16]
  | _ => []

/-- The built-in `atob` (forgiving-base64 decode of the HTML standard): the result has one
code unit for each decoded byte; data that is not Base64 raises. -/
def atob (data : JSString) : Except JSError JSString :=
  let d := stripPadding (data.filter (fun c => !isAsciiWhitespace c))
  if d.length % 4 = 1 then Except.error JSError.invalidCharacter
  else if d.all (fun c => (base64Value c).isSome) then
    Except.ok ((decodeSextets (d.filterMap base64Value)).map Char.ofNat)
  else Except.error JSError.invalidCharacter

/-- The method `replace(/x/g, y)` for a single code unit `x`. -/
def replaceAll (x y : Char) (s : JSString) : JSString :=
  s.map (fun c => if c = x then y else c)

/-- The decoding applied to inline data: `atob` after the two `replace` calls that turn
the URL-safe code units `-` and `_` into `+` and `/`. -/
def decodeData (data : JSString) : Except JSError JSString :=
  atob (replaceAll '_' '/' (replaceAll '-' '+' data))

mutual
/-- One iteration of the loop of `extractBodyFromParts`: what `part` adds to `body`. -/
def extractBodyFromPart : Part → Except JSError JSString
  | Part.mk mimeType data parts =>
    match data with
    | some (c :: cs) =>
      if mimeType = "text/plain".toList then decodeData (c :: cs)
      else extractBodyFromOptParts parts
    | _ => extractBodyFromOptParts parts
/-- The branch `else if (part.parts)`: the walk of the sub-parts when there are any. -/
def extractBodyFromOptParts : Option (List Part) → Except JSError JSString
  | none => Except.ok []
  | some ps => extractBodyFromParts ps
/-- The function `extractBodyFromParts(parts)`. -/
def extractBodyFromParts : List Part → Except JSError JSString
  | [] => Except.ok []
  | part :: rest =>
    match extractBodyFromPart part with
    | Except.error e => Except.error e
    | Except.ok text =>
      match extractBodyFromParts rest with
      | Except.error e => Except.error e
      | Except.ok more => Except.ok (text ++ more)
end

/-! ## Records -/

/-- The object `processEmail` returns.  `sender` is the field `from`; `date` is the time
value of the `Date` object, `none` for an Invalid Date. -/
structure EmailRecord where
  id : JSString
  subject : JSString
  sender : JSString
  date : Option Int
  body : JSString
  summary : JSString
  keyPoints : List JSString
  priority : Priority
  isRead : Bool
  isStarred : Bool
  isImportant : Bool
  isSpam : Bool
  threadId : JSString
  deriving DecidableEq, Repr

/-- The closure `getHeader(name)` of `processEmail`: the value of the first header whose
lower-cased name is the lower-cased `name`, and `''` when there is none (or when that
value is itself empty). -/
def getHeader (toLowerCase : JSString → JSString) (headers : List Header) (name : JSString) :
    JSString :=
  match headers.find? (fun h => decide (toLowerCase h.name = toLowerCase name)) with
  | some h => h.value
  | none => []

/-- The body extraction of `processEmail`: the payload's own data when it is a non-empty
string, else the walk of `payload.parts` when present, else `''`. -/
def extractBody (payload : Payload) : Except JSError JSString :=
  match payload.data with
  | some (c :: cs) => decodeData (c :: cs)
  | _ =>
    match payload.parts with
    | some parts => extractBodyFromParts parts
    | none => Except.ok []

/-- The function `processEmail(message)`.  `parseDate` is the time value of
`new Date(string)`, `none` when the string does not parse. -/
def processEmail (toLowerCase : JSString → JSString) (parseDate : JSString → Option Int)
    (message : RawMessage) : Except JSError EmailRecord :=
  let headers := message.payload.headers
  let subject := getHeader toLowerCase headers "Subject".toList
  let sender := getHeader toLowerCase headers "From".toList
  let date := parseDate (getHeader toLowerCase headers "Date".toList)
  match extractBody message.payload with
  | Except.error e => Except.error e
  | Except.ok body =>
    let priority := determinePriority toLowerCase subject sender body message.labelIds
    let summary := generateSummary body
    let keyPoints := extractKeyPoints body
    Except.ok {
      id := message.id
      subject := subject
      sender := sender
      date := date
      body := body
      summary := summary
      keyPoints := keyPoints
      priority := priority
      isRead := !hasLabel message.labelIds "UNREAD".toList
      isStarred := hasLabel message.labelIds "STARRED".toList
      isImportant := hasLabel message.labelIds "IMPORTANT".toList
      isSpam := hasLabel message.labelIds "SPAM".toList
      threadId := message.threadId }

/-! ## Filtering and sorting -/

/-- The string a priority is in the record. -/
def Priority.str : Priority → JSString
  | Priority.spam => "spam".toList
  | Priority.low => "low".toList
  | Priority.medium => "medium".toList
  | Priority.high => "high".toList

/-- The table `priorityOrder` of the sort comparator. -/
def priorityOrder : Priority → Int
  | Priority.high => 3
  | Priority.medium => 2
  | Priority.low => 1
  | Priority.spam => 0

/-- The comparison `a < b` of two `Date` objects: of their time values, and false as soon
as one of them is `NaN`. -/
def dateLt : Option Int → Option Int → Bool
  | some a, some b => decide (a < b)
  | _, _ => false

/-- Milliseconds in a day. -/
def msPerDay : Int := 86400000

/-- The largest absolute time value of a `Date`; beyond it a `Date` is invalid. -/
def maxTime : Int := 8640000000000000

/-- The value of `cutoffDate` after `cutoffDate.setDate(cutoffDate.getDate() - timeFilter)`
on `new Date()`.  `moveBack now n` is the built-in calendar arithmetic: the time value of
a `Date` of time value `now` once `setDate` has moved it back `n` days of the calendar of
the local time zone, `none` when the result is an Invalid Date.  It depends on the zone
and its daylight-saving rules, and is a parameter. -/
def cutoffDate (moveBack : Int → Int → Option Int) (now : Int) (timeFilter : Int) :
    Option Int :=
  moveBack now timeFilter

/-- The calendar arithmetic of `setDate` in a time zone whose offset from UTC is the same
at both instants (UTC itself, for one): a calendar day is then 24 hours. -/
def fixedOffsetBack (now : Int) (n : Int) : Option Int :=
  if -maxTime ≤ now - n * msPerDay ∧ now - n * msPerDay ≤ maxTime then
    some (now - n * msPerDay)
  else none

/-- The callback of `emails.filter` in `applyFilters`. -/
def keepEmail (cutoff : Option Int) (priorityFilter visibilityFilter : JSString)
    (email : EmailRecord) : Bool :=
  if dateLt email.date cutoff then false
  else if priorityFilter ≠ "all".toList ∧ email.priority.str ≠ priorityFilter then false
  else if visibilityFilter = "unread".toList ∧ email.isRead = true then false
  else if visibilityFilter = "read".toList ∧ email.isRead = false then false
  else if visibilityFilter = "starred".toList ∧ email.isStarred = false then false
  else true

/-- The comparator passed to `filteredEmails.sort`; `none` is the result `NaN` of
subtracting dates of which one is invalid. -/
def compareEmails (a b : EmailRecord) : Option Int :=
  if priorityOrder a.priority ≠ priorityOrder b.priority then
    some (priorityOrder b.priority - priorityOrder a.priority)
  else
    match b.date, a.date with
    | some db, some da => some (db - da)
    | _, _ => none

/-- The abstract operation SortCompare of `Array.prototype.sort`: a comparator result
`NaN` counts as `+0`. -/
def sortCompare (a b : EmailRecord) : Int := (compareEmails a b).getD 0

/-- The relation the sort orders by: `a` may stay before `b`. -/
def notAfter (a b : EmailRecord) : Prop := sortCompare a b ≤ 0

instance : DecidableRel notAfter := fun a b => inferInstanceAs (Decidable (sortCompare a b ≤ 0))

/-- A stable insertion sort by the comparator.  For a comparator that is consistent on
the elements sorted, `Array.prototype.sort` gives in every engine the list this sort
gives; where the comparator is not consistent (records with invalid dates among dated
ones) ECMAScript leaves the order to the engine. -/
def sortEmails (l : List EmailRecord) : List EmailRecord := l.insertionSort notAfter

/-- The list `filteredEmails` that `applyFilters` computes from `emails`, the three
filter controls and the current instant `now` of `new Date()`, when the engine's
`Array.prototype.sort` with the comparator of `applyFilters` is `sort`. -/
def applyFiltersWith (sort : List EmailRecord → List EmailRecord)
    (moveBack : Int → Int → Option Int) (now : Int) (timeFilter : Int)
    (priorityFilter visibilityFilter : JSString) (emails : List EmailRecord) :
    List EmailRecord :=
  let cutoff := cutoffDate moveBack now timeFilter
  sort (emails.filter (keepEmail cutoff priorityFilter visibilityFilter))

/-- The list `filteredEmails` of `applyFilters` with the insertion sort for the engine's
sort. -/
def applyFilters (moveBack : Int → Int → Option Int) (now : Int) (timeFilter : Int)
    (priorityFilter visibilityFilter : JSString) (emails : List EmailRecord) :
    List EmailRecord :=
  applyFiltersWith sortEmails moveBack now timeFilter priorityFilter visibilityFilter emails

/-! ## Vocabulary of the statements -/

/-- An ASCII-only lower-casing, used to run the code on concrete inputs. -/
def asciiLower (s : JSString) : JSString := s.map Char.toLower

/-- The label set of a message contains `label`. -/
def Labelled (labelIds : Option (List JSString)) (label : JSString) : Prop :=
  ∃ ls, labelIds = some ls ∧ label ∈ ls

/-- The lower-cased subject or the lower-cased body contains one of `keywords` as a
substring. -/
def Mentions (toLowerCase : JSString → JSString) (keywords : List JSString)
    (subject body : JSString) : Prop :=
  ∃ kw ∈ keywords, kw <:+: toLowerCase subject ∨ kw <:+: toLowerCase body

mutual
/-- The inline data the walk of `extractBodyFromParts` reaches in one part: the part's own
data when the part is of type `text/plain` and its data is a non-empty string (the walk
then stops there), and otherwise whatever it reaches in the sub-parts. -/
def reachedDataOfPart : Part → List JSString
  | Part.mk mimeType data parts =>
    match data with
    | some (c :: cs) =>
      if mimeType = "text/plain".toList then [c :: cs] else reachedDataOfOptParts parts
    | _ => reachedDataOfOptParts parts
/-- The inline data reached in the sub-parts of a part, none when it has no `parts`. -/
def reachedDataOfOptParts : Option (List Part) → List JSString
  | none => []
  | some ps => reachedData ps
/-- The inline data reached in a list of parts, depth-first and in listed order. -/
def reachedData : List Part → List JSString
  | [] => []
  | part :: rest => reachedDataOfPart part ++ reachedData rest
end

mutual
/-- The inline data of the leaves below one part that are of type `text/plain`: a leaf
is a part without sub-parts. -/
def plainLeafDataOfPart : Part → List JSString
  | Part.mk mimeType data parts =>
    match parts with
    | some (q :: qs) => plainLeafData (q :: qs)
    | _ =>
      match data with
      | some d => if mimeType = "text/plain".toList then [d] else []
      | none => []
/-- The inline data of the `text/plain` leaves of a list of parts, depth-first and in
listed order. -/
def plainLeafData : List Part → List JSString
  | [] => []
  | part :: rest => plainLeafDataOfPart part ++ plainLeafData rest
end

/-- The decoding of each of a list of inline data in turn; the first that is not Base64
raises. -/
def decodeAll : List JSString → Except JSError (List JSString)
  | [] => Except.ok []
  | d :: ds =>
    match decodeData d with
    | Except.error e => Except.error e
    | Except.ok text =>
      match decodeAll ds with
      | Except.error e => Except.error e
      | Except.ok texts => Except.ok (text :: texts)

/-- The inline data `processEmail` decodes for a payload: the payload's own data when it
is a non-empty string, and otherwise the data reached in `payload.parts`. -/
def decodedData (payload : Payload) : List JSString :=
  match payload.data with
  | some (c :: cs) => [c :: cs]
  | _ => reachedDataOfOptParts payload.parts

/-- A `text/plain` part with the given inline data and no sub-parts. -/
def plainLeaf (data : String) : Part := Part.mk "text/plain".toList (some data.toList) none

/-- A part list whose one `text/plain` part carries data and also has a sub-part. -/
def nestedParts : List Part :=
  [Part.mk "text/plain".toList (some "QQ==".toList) (some [plainLeaf "Qg=="])]

/-- A part list with one `text/plain` leaf whose data is not Base64. -/
def undecodableParts : List Part := [plainLeaf "!"]

/-- A message without headers or labels whose payload has the given parts and no data of
its own. -/
def messageOfParts (parts : List Part) : RawMessage :=
  { id := "m1".toList, threadId := "t1".toList, labelIds := none,
    payload := { headers := [], data := none, parts := some parts } }

/-- A date parser that parses nothing.  It agrees with `new Date(string)` on the empty
string, which is what `getHeader('Date')` gives for a message without a Date header. -/
def parseNothing : JSString → Option Int := fun _ => none

/-- A part list with a `multipart/alternative` part (a plain and an HTML alternative)
followed by a plain leaf. -/
def sampleParts : List Part :=
  [Part.mk "multipart/alternative".toList none
      (some [plainLeaf "SGVsbG8=", Part.mk "text/html".toList (some "PGI-".toList) none]),
    plainLeaf "IQ=="]

/-- A part list with a decodable plain leaf followed by one whose data is not Base64. -/
def halfDecodableParts : List Part := [plainLeaf "QQ==", plainLeaf "!"]

/-- The comparison `a >= b` of two `Date` objects: false as soon as one time value is
`NaN`. -/
def dateGe : Option Int → Option Int → Bool
  | some a, some b => decide (a ≥ b)
  | _, _ => false

/-- The record passes the time filter of `applyFilters`: `email.date < cutoffDate` is
false. -/
def inTimeWindow (cutoff : Option Int) (email : EmailRecord) : Bool :=
  !dateLt email.date cutoff

/-- The record's priority is the one asked for, any priority when `'all'` is asked. -/
def matchesPriority (priorityFilter : JSString) (email : EmailRecord) : Bool :=
  decide (priorityFilter = "all".toList ∨ email.priority.str = priorityFilter)

/-- The record's flags are the ones asked for: unread for `'unread'`, read for `'read'`,
starred for `'starred'`, any for another value such as `'all'`. -/
def matchesVisibility (visibilityFilter : JSString) (email : EmailRecord) : Bool :=
  if visibilityFilter = "unread".toList then !email.isRead
  else if visibilityFilter = "read".toList then email.isRead
  else if visibilityFilter = "starred".toList then email.isStarred
  else true

/-- The order the sort is claimed to produce, for a record `a` placed before a record
`b`: `b` is not of a higher tier, and with equal tiers `b` is not the more recent. -/
def ComesFirst (a b : EmailRecord) : Prop :=
  priorityOrder b.priority ≤ priorityOrder a.priority ∧
    (a.priority = b.priority → dateLt a.date b.date = false)

instance : DecidableRel ComesFirst := fun a b =>
  inferInstanceAs (Decidable (priorityOrder b.priority ≤ priorityOrder a.priority ∧
    (a.priority = b.priority → dateLt a.date b.date = false)))

/-- Every record of tier `p` in `l` has a valid date. -/
def TierDated (l : List EmailRecord) (p : Priority) : Prop :=
  ∀ e ∈ l, e.priority = p → e.date ≠ none

/-- A record with the given id, date, priority and flags, and nothing else of note. -/
def sampleRecord (id : String) (date : Option Int) (priority : Priority)
    (isRead isStarred : Bool) : EmailRecord :=
  { id := id.toList, subject := [], sender := [], date := date, body := [],
    summary := ".".toList, keyPoints := [], priority := priority, isRead := isRead,
    isStarred := isStarred, isImportant := false, isSpam := false, threadId := id.toList }

/-- The record `processEmail` builds for `messageOfParts []`, a message without a Date
header. -/
def undatedRecord : EmailRecord :=
  { id := "m1".toList, subject := [], sender := [], date := none, body := [],
    summary := ".".toList, keyPoints := [], priority := Priority.medium, isRead := true,
    isStarred := false, isImportant := false, isSpam := false, threadId := "t1".toList }

/-- Three records of the same tier: dated 100, undated, dated 200. -/
def mixedDates : List EmailRecord :=
  [sampleRecord "a" (some 100) Priority.medium true false,
    sampleRecord "x" none Priority.medium true false,
    sampleRecord "b" (some 200) Priority.medium true false]

/-- The current instant of the end-to-end example: day 100 after the epoch. -/
def sampleNow : Int := 100 * msPerDay

/-- The working set of the end-to-end example, priorities low, high, spam: the low record
is read, the high one unread and ten days old, the spam one unread and ninety days old. -/
def sampleWorkingSet : List EmailRecord :=
  [sampleRecord "low" (some (99 * msPerDay)) Priority.low true false,
    sampleRecord "high" (some (90 * msPerDay)) Priority.high false false,
    sampleRecord "spam" (some (10 * msPerDay)) Priority.spam false false]

/-- The comparator finds no difference between `a` and `b`. -/
def tied (a b : EmailRecord) : Bool := decide (sortCompare a b = 0)

/-- The comparator is consistent on the records of `l`, in the sense of ECMAScript: it
orders them as a total preorder.  The comparator of `applyFilters` compares any two
records one way or the other, so what is asked is transitivity. -/
def Consistent (l : List EmailRecord) : Prop :=
  ∀ a ∈ l, ∀ b ∈ l, ∀ c ∈ l, notAfter a b → notAfter b c → notAfter a c

/-- What ECMAScript requires of `Array.prototype.sort` with the comparator of
`applyFilters`: on records on which the comparator is consistent the result is a
rearrangement of the input, ordered by the comparator, in which records the comparator
does not tell apart keep their order (the sort is stable).  Nothing is required where
the comparator is not consistent: the order is then implementation-defined. -/
def SortsLike (sort : List EmailRecord → List EmailRecord) : Prop :=
  ∀ l, Consistent l →
    (sort l).Perm l ∧ (sort l).Pairwise notAfter ∧
      ∀ a ∈ l, (sort l).filter (tied a) = l.filter (tied a)

/-- The merge of two sorted runs, a record of the left run going first unless the head
of the right run must come before it; `fuel` bounds the number of steps. -/
def mergeRuns : Nat → List EmailRecord → List EmailRecord → List EmailRecord
  | 0, xs, ys => xs ++ ys
  | _ + 1, [], ys => ys
  | _ + 1, x :: xs, [] => x :: xs
  | fuel + 1, x :: xs, y :: ys =>
    if sortCompare x y ≤ 0 then x :: mergeRuns fuel xs (y :: ys)
    else y :: mergeRuns fuel (x :: xs) ys

/-- A top-down merge sort: the two halves are sorted and merged; `fuel` bounds the depth
of the halving. -/
def mergeSortFuel : Nat → List EmailRecord → List EmailRecord
  | 0, l => l
  | fuel + 1, l =>
    if l.length < 2 then l
    else
      mergeRuns l.length (mergeSortFuel fuel (l.take (l.length / 2)))
        (mergeSortFuel fuel (l.drop (l.length / 2)))

/-- A stable merge sort by the comparator, another sort an engine may use for
`Array.prototype.sort`. -/
def mergeSortEmails (l : List EmailRecord) : List EmailRecord := mergeSortFuel l.length l

/-- Four records: a spam record, then three of tier low dated 100, undated and dated
200. -/
def staleOrder : List EmailRecord :=
  [sampleRecord "s" (some 100) Priority.spam true false,
    sampleRecord "a" (some 100) Priority.low true false,
    sampleRecord "x" none Priority.low true false,
    sampleRecord "b" (some 200) Priority.low true false]

/-- The records of `staleOrder`, all of them dated. -/
def datedOrder : List EmailRecord :=
  [sampleRecord "s" (some 100) Priority.spam true false,
    sampleRecord "a" (some 100) Priority.low true false,
    sampleRecord "x" (some 150) Priority.low true false,
    sampleRecord "b" (some 200) Priority.low true false]

/-! ## Properties -/

theorem includes_iff_occurs (s kw : JSString) : includes s kw = true ↔ kw <:+: s := by
  induction s with
  | nil => simp [includes]
  | cons c cs ih =>
    simp only [includes, Bool.or_eq_true, ih, List.infix_cons_iff]
    simp

theorem hasLabel_iff (labelIds : Option (List JSString)) (label : JSString) :
    hasLabel labelIds label = true ↔ ∃ ls, labelIds = some ls ∧ label ∈ ls := by
  cases labelIds with
  | none => simp [hasLabel]
  | some ls => simp [hasLabel]

theorem urgent_iff (toLowerCase : JSString → JSString) (subject body : JSString) :
    (urgentKeywords.any (fun keyword => includes (toLowerCase subject) keyword)
      || urgentKeywords.any (fun keyword => includes (toLowerCase body) keyword)) = true ↔
    Mentions toLowerCase urgentKeywords subject body := by
  simp only [Bool.or_eq_true, List.any_eq_true, includes_iff_occurs, Mentions]
  constructor
  · rintro (⟨kw, hk, h⟩ | ⟨kw, hk, h⟩)
    · exact ⟨kw, hk, Or.inl h⟩
    · exact ⟨kw, hk, Or.inr h⟩
  · rintro ⟨kw, hk, h | h⟩
    · exact Or.inl ⟨kw, hk, h⟩
    · exact Or.inr ⟨kw, hk, h⟩

theorem promotional_iff (toLowerCase : JSString → JSString) (subject body : JSString) :
    promotionalKeywords.any (fun keyword =>
      includes (toLowerCase subject) keyword || includes (toLowerCase body) keyword) = true ↔
    Mentions toLowerCase promotionalKeywords subject body := by
  simp only [Bool.or_eq_true, List.any_eq_true, includes_iff_occurs, Mentions]

/-- C1: `determinePriority` returns the tier of the first rule that matches, in the order
(1) label SPAM gives `spam`; (2) label IMPORTANT gives `high`; (3) an urgent keyword in
the lower-cased subject or body gives `high`; (4) a promotional keyword there gives
`low`; (5) otherwise `medium`.  This holds for every subject, sender, body and label
set, and whatever the lower-casing is. -/
theorem determinePriority_first_match (toLowerCase : JSString → JSString)
    (subject sender body : JSString) (labelIds : Option (List JSString)) :
    (Labelled labelIds "SPAM".toList →
      determinePriority toLowerCase subject sender body labelIds = Priority.spam) ∧
    (¬ Labelled labelIds "SPAM".toList → Labelled labelIds "IMPORTANT".toList →
      determinePriority toLowerCase subject sender body labelIds = Priority.high) ∧
    (¬ Labelled labelIds "SPAM".toList → ¬ Labelled labelIds "IMPORTANT".toList →
      Mentions toLowerCase urgentKeywords subject body →
      determinePriority toLowerCase subject sender body labelIds = Priority.high) ∧
    (¬ Labelled labelIds "SPAM".toList → ¬ Labelled labelIds "IMPORTANT".toList →
      ¬ Mentions toLowerCase urgentKeywords subject body →
      Mentions toLowerCase promotionalKeywords subject body →
      determinePriority toLowerCase subject sender body labelIds = Priority.low) ∧
    (¬ Labelled labelIds "SPAM".toList → ¬ Labelled labelIds "IMPORTANT".toList →
      ¬ Mentions toLowerCase urgentKeywords subject body →
      ¬ Mentions toLowerCase promotionalKeywords subject body →
      determinePriority toLowerCase subject sender body labelIds = Priority.medium) := by
  have hs := hasLabel_iff labelIds "SPAM".toList
  have hi := hasLabel_iff labelIds "IMPORTANT".toList
  have hu := urgent_iff toLowerCase subject body
  have hp := promotional_iff toLowerCase subject body
  unfold Labelled
  refine ⟨fun h1 => ?_, fun h1 h2 => ?_, fun h1 h2 h3 => ?_, fun h1 h2 h3 h4 => ?_,
    fun h1 h2 h3 h4 => ?_⟩
  · simp only [determinePriority, hs.mpr h1, if_true]
  · rw [← hs] at h1
    simp only [determinePriority, h1, hi.mpr h2, if_true]
    simp
  · rw [← hs] at h1
    rw [← hi] at h2
    simp only [determinePriority, h1, h2, hu.mpr h3, if_true]
    simp
  · rw [← hs] at h1
    rw [← hi] at h2
    rw [← hu] at h3
    simp only [determinePriority, h1, h2, h3, hp.mpr h4, if_true]
    simp
  · rw [← hs] at h1
    rw [← hi] at h2
    rw [← hu] at h3
    rw [← hp] at h4
    simp only [determinePriority, h1, h2, h3, h4]
    simp

/-- C1 at two inputs: a SPAM-labelled message with an urgent and a promotional keyword
is `spam`, and an unlabelled one with both keywords is `high`. -/
theorem determinePriority_first_match_witness :
    determinePriority asciiLower "URGENT sale".toList [] "Best offer".toList
      (some ["INBOX".toList, "SPAM".toList]) = Priority.spam ∧
    determinePriority asciiLower "Big SALE, Urgent".toList [] [] none = Priority.high :=
  ⟨(determinePriority_first_match asciiLower "URGENT sale".toList [] "Best offer".toList
      (some ["INBOX".toList, "SPAM".toList])).1 ⟨_, rfl, by decide⟩,
    (determinePriority_first_match asciiLower "Big SALE, Urgent".toList [] [] none).2.2.1
      (by rintro ⟨ls, h, _⟩; cases h) (by rintro ⟨ls, h, _⟩; cases h)
      ⟨"urgent".toList, by decide, Or.inl (by decide)⟩⟩

/-! ### The split -/

theorem splitFrom_ne_nil (inRun : Bool) (s : JSString) : splitFrom inRun s ≠ [] := by
  induction s generalizing inRun with
  | nil => simp [splitFrom]
  | cons c cs ih =>
    unfold splitFrom
    split
    · split
      · exact ih true
      · simp
    · split <;> simp

/-- No piece of the split holds a delimiter. -/
theorem splitFrom_no_delimiter (inRun : Bool) (s : JSString) :
    ∀ p ∈ splitFrom inRun s, ∀ c ∈ p, isDelimiter c = false := by
  induction s generalizing inRun with
  | nil => simp [splitFrom]
  | cons c cs ih =>
    unfold splitFrom
    split
    · split
      · exact ih true
      · intro p hp
        rcases List.mem_cons.mp hp with rfl | hp
        · simp
        · exact ih true p hp
    · rename_i hc
      split
      · rename_i q qs hq
        intro p hp
        have hmem : ∀ r ∈ q :: qs, ∀ d ∈ r, isDelimiter d = false := by
          rw [← hq]; exact ih false
        rcases List.mem_cons.mp hp with rfl | hp
        · intro d hd
          rcases List.mem_cons.mp hd with rfl | hd
          · simpa using hc
          · exact hmem q (List.mem_cons_self _ _) d hd
        · exact hmem p (List.mem_cons_of_mem _ hp)
      · intro p hp d hd
        simp only [List.mem_singleton] at hp
        subst hp
        simp only [List.mem_singleton] at hd
        subst hd
        simpa using hc

/-- The pieces of the split, put end to end, are the body without its delimiters. -/
theorem splitFrom_flatten (inRun : Bool) (s : JSString) :
    (splitFrom inRun s).flatten = s.filter (fun c => !isDelimiter c) := by
  induction s generalizing inRun with
  | nil => simp [splitFrom]
  | cons c cs ih =>
    unfold splitFrom
    split
    · rename_i hc
      split
      · rw [ih true]; simp [hc]
      · rw [List.flatten_cons, ih true]; simp [hc]
    · rename_i hc
      split
      · rename_i q qs hq
        have := ih false
        rw [hq] at this
        simp only [List.flatten_cons] at this
        simp [hc, this]
      · rename_i hq
        exact absurd hq (splitFrom_ne_nil false cs)

theorem trim_nil : trim [] = [] := by
  simp [trim, List.rdropWhile]

theorem ne_nil_of_trim_length_pos (s : JSString) (h : 0 < (trim s).length) : s ≠ [] := by
  rintro rfl
  rw [trim_nil] at h
  exact absurd h (by decide)

/-- A non-empty piece of the split ends in a code unit other than `'.'`. -/
theorem piece_ends_without_dot (body p : JSString) (hp : p ∈ splitSentences body)
    (hne : p ≠ []) : ∃ x c, p = x ++ [c] ∧ c ≠ '.' := by
  refine ⟨p.dropLast, p.getLast hne, (List.dropLast_append_getLast hne).symm, ?_⟩
  intro hc
  have := splitFrom_no_delimiter false body p hp (p.getLast hne) (List.getLast_mem hne)
  rw [hc] at this
  exact absurd this (by decide)

/-! ### Summary and key points -/

/-- The summary is never the empty string, so the fallback of `||` is never taken. -/
theorem generateSummary_eq (body : JSString) :
    generateSummary body =
      join (slice ((splitSentences body).filter (fun s => decide ((trim s).length > 20))) 0 2)
        ". ".toList ++ ".".toList := by
  simp [generateSummary]

/-- Where no sentence qualifies, the summary is the one-character string `"."`. -/
theorem generateSummary_of_none_qualifying (body : JSString)
    (h : ∀ s ∈ splitSentences body, (trim s).length ≤ 20) :
    generateSummary body = ".".toList := by
  rw [generateSummary_eq]
  have : (splitSentences body).filter (fun s => decide ((trim s).length > 20)) = [] := by
    rw [List.filter_eq_nil_iff]
    intro s hs
    have := h s hs
    simp only [gt_iff_lt, decide_eq_true_eq, not_lt]
    exact this
  rw [this]
  rfl

/-- C3 (the code at the claim's input): for the empty body, in which no sentence has
trimmed length above 20, `generateSummary` returns `"."` and not the placeholder
`'No summary available for this email.'`. -/
theorem generateSummary_empty_body :
    (∀ s ∈ splitSentences [], (trim s).length ≤ 20) ∧
    generateSummary [] = ".".toList ∧ generateSummary [] ≠ placeholder := by
  decide

/-- C4: for a body with at least one sentence of trimmed length above 20, the summary is
the first such sentence, or the first two joined with `". "`, followed by `"."`; the
sentences used have trimmed length above 20, and the final `"."` is single: the code unit
before it is not a `'.'`. -/
theorem generateSummary_of_qualifying (body : JSString)
    (h : ∃ s ∈ splitSentences body, (trim s).length > 20) :
    ∃ first rest,
      (splitSentences body).filter (fun s => decide ((trim s).length > 20)) = first :: rest ∧
      generateSummary body =
        (match rest with
          | [] => first
          | second :: _ => first ++ ". ".toList ++ second) ++ ".".toList ∧
      (trim first).length > 20 ∧ (∀ second ∈ rest.head?, (trim second).length > 20) ∧
      ∃ x c, generateSummary body = x ++ [c, '.'] ∧ c ≠ '.' := by
  obtain ⟨s, hs, hlen⟩ := h
  have hmemq : s ∈ (splitSentences body).filter (fun s => decide ((trim s).length > 20)) :=
    List.mem_filter.mpr ⟨hs, by simpa using hlen⟩
  have hq : ∀ t ∈ (splitSentences body).filter (fun s => decide ((trim s).length > 20)),
      t ∈ splitSentences body ∧ (trim t).length > 20 := by
    intro t ht
    have := List.mem_filter.mp ht
    exact ⟨this.1, by simpa using this.2⟩
  have hends : ∀ t ∈ (splitSentences body).filter (fun s => decide ((trim s).length > 20)),
      ∃ x c, t = x ++ [c] ∧ c ≠ '.' := by
    intro t ht
    have := hq t ht
    exact piece_ends_without_dot body t this.1
      (ne_nil_of_trim_length_pos t (by have := this.2; omega))
  rw [generateSummary_eq]
  generalize (splitSentences body).filter (fun s => decide ((trim s).length > 20)) = q
    at hmemq hq hends
  match q, hmemq, hq, hends with
  | [first], _, hq, hends =>
    refine ⟨first, [], rfl, ?_, (hq first (by simp)).2, by simp, ?_⟩
    · simp [join, slice, List.intercalate, List.intersperse]
    · obtain ⟨x, c, hx, hc⟩ := hends first (by simp)
      exact ⟨x, c, by simp [join, slice, List.intercalate, List.intersperse, hx], hc⟩
  | first :: second :: rest, _, hq, hends =>
    refine ⟨first, second :: rest, rfl, ?_, (hq first (by simp)).2, ?_, ?_⟩
    · simp [join, slice, List.intercalate]
    · intro t ht
      simp only [List.head?_cons, Option.mem_def, Option.some.injEq] at ht
      subst ht
      exact (hq _ (by simp)).2
    · obtain ⟨x, c, hx, hc⟩ := hends second (by simp)
      exact ⟨first ++ ". ".toList ++ x, c, by simp [join, slice, List.intercalate, hx], hc⟩

set_option maxRecDepth 100000 in
/-- C4 at the six-sentence body of the specification: the summary is built from the
second and third pieces of the split, each with the blank that follows the preceding
full stop. -/
theorem generateSummary_of_qualifying_witness :
    (∃ s ∈ splitSentences specBody, (trim s).length > 20) ∧
    generateSummary specBody =
      " This is a qualifying sentence over twenty chars.  Another qualifying one here now.".toList ∧
    ∃ first rest,
      (splitSentences specBody).filter (fun s => decide ((trim s).length > 20))
        = first :: rest ∧
      generateSummary specBody =
        (match rest with
          | [] => first
          | second :: _ => first ++ ". ".toList ++ second) ++ ".".toList ∧
      (trim first).length > 20 ∧ (∀ second ∈ rest.head?, (trim second).length > 20) ∧
      ∃ x c, generateSummary specBody = x ++ [c, '.'] ∧ c ≠ '.' :=
  have h : ∃ s ∈ splitSentences specBody, (trim s).length > 20 :=
    ⟨" This is a qualifying sentence over twenty chars".toList, by decide, by decide⟩
  ⟨h, by decide, generateSummary_of_qualifying specBody h⟩

/-- C5: `extractKeyPoints` returns, trimmed and in order, the entries at positions 2, 3
and 4 of the list of sentences of trimmed length above 10; so it has at most three
entries, none of them empty, and it is `[]` for the empty body. -/
theorem extractKeyPoints_spec (body : JSString) :
    extractKeyPoints body =
      ((((splitSentences body).filter (fun s => decide ((trim s).length > 10))).drop 2).take 3).map
        trim ∧
    (∀ i : Nat, (extractKeyPoints body)[i]? =
      if i < 3 then
        (((splitSentences body).filter (fun s => decide ((trim s).length > 10)))[2 + i]?).map trim
      else none) ∧
    (extractKeyPoints body).length ≤ 3 ∧
    (∀ p ∈ extractKeyPoints body, p ≠ []) ∧
    extractKeyPoints [] = [] := by
  have hq : ∀ t ∈ (splitSentences body).filter (fun s => decide ((trim s).length > 10)),
      (trim t).length > 10 := by
    intro t ht
    simpa using (List.mem_filter.mp ht).2
  have heq : extractKeyPoints body =
      ((((splitSentences body).filter (fun s => decide ((trim s).length > 10))).drop 2).take 3).map
        trim := by
    unfold extractKeyPoints slice
    rw [List.filter_eq_self]
    intro p hp
    obtain ⟨t, ht, rfl⟩ := List.mem_map.mp hp
    have := hq t (List.mem_of_mem_drop (List.mem_of_mem_take ht))
    simp only [gt_iff_lt, decide_eq_true_eq]
    omega
  refine ⟨heq, ?_, ?_, ?_, by decide⟩
  · intro i
    rw [heq, List.getElem?_map, List.getElem?_take]
    split
    · rw [List.getElem?_drop]
    · rfl
  · rw [heq, List.length_map]
    exact List.length_take_le 3 _
  · intro p hp
    rw [heq] at hp
    obtain ⟨t, ht, rfl⟩ := List.mem_map.mp hp
    have := hq t (List.mem_of_mem_drop (List.mem_of_mem_take ht))
    intro h0
    rw [h0] at this
    exact absurd this (by decide)

set_option maxRecDepth 100000 in
/-- The key points of the specification's example body. -/
theorem extractKeyPoints_specBody :
    extractKeyPoints specBody =
      ["Third one goes here too".toList, "Fourth sentence present".toList,
        "Fifth sentence also present".toList] := by
  decide

/-! ### The walk of the part tree -/

theorem decodeAll_append (xs ys : List JSString) :
    decodeAll (xs ++ ys) =
      match decodeAll xs with
      | Except.error e => Except.error e
      | Except.ok texts =>
        match decodeAll ys with
        | Except.error e => Except.error e
        | Except.ok more => Except.ok (texts ++ more) := by
  induction xs with
  | nil =>
    simp only [List.nil_append, decodeAll]
    cases decodeAll ys <;> rfl
  | cons d ds ih =>
    have h1 : decodeAll (d :: ds ++ ys) =
        match decodeData d with
        | Except.error e => Except.error e
        | Except.ok text =>
          match decodeAll (ds ++ ys) with
          | Except.error e => Except.error e
          | Except.ok texts => Except.ok (text :: texts) := rfl
    have h2 : decodeAll (d :: ds) =
        match decodeData d with
        | Except.error e => Except.error e
        | Except.ok text =>
          match decodeAll ds with
          | Except.error e => Except.error e
          | Except.ok texts => Except.ok (text :: texts) := rfl
    rw [h1, h2, ih]
    cases decodeData d with
    | error e => rfl
    | ok text =>
      cases decodeAll ds with
      | error e => rfl
      | ok texts =>
        cases decodeAll ys with
        | error e => rfl
        | ok more => rfl

mutual
theorem extractBodyFromPart_eq : ∀ part : Part,
    extractBodyFromPart part = (decodeAll (reachedDataOfPart part)).map List.flatten
  | Part.mk mimeType data parts => by
    have ih := extractBodyFromOptParts_eq parts
    unfold extractBodyFromPart reachedDataOfPart
    split
    · split
      · simp only [decodeAll]
        cases decodeData _ <;> simp [Except.map]
      · exact ih
    · exact ih
theorem extractBodyFromOptParts_eq : ∀ parts : Option (List Part),
    extractBodyFromOptParts parts = (decodeAll (reachedDataOfOptParts parts)).map List.flatten
  | none => by simp [extractBodyFromOptParts, reachedDataOfOptParts, decodeAll, Except.map]
  | some ps => by
    have ih := extractBodyFromParts_eq ps
    simpa [extractBodyFromOptParts, reachedDataOfOptParts] using ih
theorem extractBodyFromParts_eq : ∀ parts : List Part,
    extractBodyFromParts parts = (decodeAll (reachedData parts)).map List.flatten
  | [] => by simp [extractBodyFromParts, reachedData, decodeAll, Except.map]
  | part :: rest => by
    have ih1 := extractBodyFromPart_eq part
    have ih2 := extractBodyFromParts_eq rest
    unfold extractBodyFromParts reachedData
    rw [ih1, ih2, decodeAll_append]
    cases decodeAll (reachedDataOfPart part) with
    | error e => rfl
    | ok texts =>
      cases decodeAll (reachedData rest) with
      | error e => rfl
      | ok more => simp [Except.map]
end

theorem decodeAll_cons (d : JSString) (ds : List JSString) :
    decodeAll (d :: ds) =
      match decodeData d with
      | Except.error e => Except.error e
      | Except.ok text =>
        match decodeAll ds with
        | Except.error e => Except.error e
        | Except.ok texts => Except.ok (text :: texts) := rfl

theorem decodeAll_ok_iff (ds texts : List JSString) :
    decodeAll ds = Except.ok texts ↔
      List.Forall₂ (fun d t => decodeData d = Except.ok t) ds texts := by
  induction ds generalizing texts with
  | nil =>
    constructor
    · intro h
      simp only [decodeAll, Except.ok.injEq] at h
      subst h
      exact List.Forall₂.nil
    · intro h
      cases h
      rfl
  | cons d ds ih =>
    rw [decodeAll_cons]
    constructor
    · intro h
      cases hd : decodeData d with
      | error e => rw [hd] at h; cases h
      | ok text =>
        rw [hd] at h
        cases hds : decodeAll ds with
        | error e => rw [hds] at h; cases h
        | ok more =>
          rw [hds] at h
          simp only [Except.ok.injEq] at h
          subst h
          exact List.Forall₂.cons hd ((ih more).mp hds)
    · intro h
      cases h with
      | cons h1 h2 =>
        rw [h1, (ih _).mpr h2]

theorem decodeAll_ok_of_forall (ds : List JSString)
    (h : ∀ d ∈ ds, ∃ t, decodeData d = Except.ok t) : ∃ texts, decodeAll ds = Except.ok texts := by
  induction ds with
  | nil => exact ⟨[], rfl⟩
  | cons d ds ih =>
    obtain ⟨t, ht⟩ := h d (List.mem_cons_self _ _)
    obtain ⟨ts, hts⟩ := ih (fun x hx => h x (List.mem_cons_of_mem _ hx))
    exact ⟨t :: ts, by rw [decodeAll_cons, ht, hts]⟩

theorem forall_of_decodeAll_ok (ds texts : List JSString) (h : decodeAll ds = Except.ok texts) :
    ∀ d ∈ ds, ∃ t, decodeData d = Except.ok t := by
  have h2 := (decodeAll_ok_iff ds texts).mp h
  clear h
  induction h2 with
  | nil => intro d hd; cases hd
  | cons h1 _ ih =>
    intro d hd
    rcases List.mem_cons.mp hd with rfl | hd
    · exact ⟨_, h1⟩
    · exact ih d hd

theorem decodeAll_error_of_exists (ds : List JSString)
    (h : ∃ d ∈ ds, ∃ e, decodeData d = Except.error e) : ∃ e, decodeAll ds = Except.error e := by
  cases hds : decodeAll ds with
  | error e => exact ⟨e, rfl⟩
  | ok texts =>
    obtain ⟨d, hd, e, he⟩ := h
    obtain ⟨t, ht⟩ := forall_of_decodeAll_ok ds texts hds d hd
    rw [he] at ht
    cases ht

theorem extractBody_eq (payload : Payload) :
    extractBody payload = (decodeAll (decodedData payload)).map List.flatten := by
  unfold extractBody decodedData
  split
  · rw [decodeAll_cons]
    cases decodeData _ <;> simp [decodeAll, Except.map]
  · rw [← extractBodyFromOptParts_eq]
    cases payload.parts <;> rfl

/-- C10 (as stated, refuted): at `nestedParts` the code returns `"A"`, the data of the
`text/plain` part that has a sub-part, while the decoded data of the `text/plain`
leaves is `"B"`; at `undecodableParts` the code returns nothing, it raises. -/
theorem extractBodyFromParts_not_leaf_concatenation :
    (extractBodyFromParts nestedParts = Except.ok "A".toList ∧
      (decodeAll (plainLeafData nestedParts)).map List.flatten = Except.ok "B".toList) ∧
    (plainLeafData undecodableParts = ["!".toList] ∧
      ¬ ∃ body, extractBodyFromParts undecodableParts = Except.ok body) := by
  refine ⟨⟨by decide, by decide⟩, by decide, ?_⟩
  rintro ⟨body, h⟩
  have h2 : extractBodyFromParts undecodableParts = Except.error JSError.invalidCharacter := by
    decide
  rw [h2] at h
  cases h

/-- C10 (amended): the walk of `extractBodyFromParts` is depth-first in listed order; it
stops at a part of type exactly `text/plain` with non-empty inline data, whose sub-parts
it does not visit, and descends into the sub-parts of every other part.  When the data of
each part it stops at decodes, the result is the concatenation of the decoded data, in
that order; when one does not decode, the function raises. -/
theorem extractBodyFromParts_reached (parts : List Part) :
    (∀ texts, List.Forall₂ (fun d t => decodeData d = Except.ok t) (reachedData parts) texts →
      extractBodyFromParts parts = Except.ok texts.flatten) ∧
    ((∃ d ∈ reachedData parts, ∃ e, decodeData d = Except.error e) →
      ∃ e, extractBodyFromParts parts = Except.error e) := by
  rw [extractBodyFromParts_eq]
  constructor
  · intro texts h
    rw [(decodeAll_ok_iff _ _).mpr h]
    rfl
  · intro h
    obtain ⟨e, he⟩ := decodeAll_error_of_exists _ h
    exact ⟨e, by rw [he]; rfl⟩

/-- C10 (amended) at `sampleParts`: the plain alternative and the plain leaf are
decoded, the HTML alternative is not. -/
theorem extractBodyFromParts_reached_witness :
    reachedData sampleParts = ["SGVsbG8=".toList, "IQ==".toList] ∧
    extractBodyFromParts sampleParts = Except.ok "Hello!".toList :=
  ⟨by decide,
    (extractBodyFromParts_reached sampleParts).1 ["Hello".toList, "!".toList]
      (List.Forall₂.cons (by decide) (List.Forall₂.cons (by decide) List.Forall₂.nil))⟩

/-- C2 (as stated, refuted): for a message whose parts are a decodable plain leaf and an
undecodable one, `processEmail` returns no record; the undecodable part is not skipped
and the text `"A"` of the other part is lost with it. -/
theorem processEmail_raises :
    decodeData "QQ==".toList = Except.ok "A".toList ∧
    processEmail asciiLower parseNothing (messageOfParts halfDecodableParts)
      = Except.error JSError.invalidCharacter ∧
    ¬ ∃ r, processEmail asciiLower parseNothing (messageOfParts halfDecodableParts)
      = Except.ok r := by
  have h : processEmail asciiLower parseNothing (messageOfParts halfDecodableParts)
      = Except.error JSError.invalidCharacter := by decide
  refine ⟨by decide, h, ?_⟩
  rintro ⟨r, hr⟩
  rw [h] at hr
  cases hr

/-- C2 (amended): `processEmail` returns a record exactly when every inline datum it
decodes is Base64 (the payload's own data when non-empty, else the data the walk of the
parts reaches); the body of the record is then the concatenation of the decoded data,
the empty string when there is none.  When a datum does not decode nothing is skipped:
`processEmail` raises and returns no record. -/
theorem processEmail_record_iff (toLowerCase : JSString → JSString)
    (parseDate : JSString → Option Int) (message : RawMessage) :
    ((∃ r, processEmail toLowerCase parseDate message = Except.ok r) ↔
      ∀ d ∈ decodedData message.payload, ∃ t, decodeData d = Except.ok t) ∧
    (∀ r, processEmail toLowerCase parseDate message = Except.ok r →
      ∃ texts, List.Forall₂ (fun d t => decodeData d = Except.ok t)
        (decodedData message.payload) texts ∧ r.body = texts.flatten) ∧
    ((∃ d ∈ decodedData message.payload, ∃ e, decodeData d = Except.error e) →
      ∃ e, processEmail toLowerCase parseDate message = Except.error e) := by
  have hb := extractBody_eq message.payload
  refine ⟨⟨?_, ?_⟩, ?_, ?_⟩
  · rintro ⟨r, hr⟩
    unfold processEmail at hr
    cases hd : decodeAll (decodedData message.payload) with
    | error e =>
      rw [hd] at hb
      simp only [hb, Except.map] at hr
      cases hr
    | ok texts => exact forall_of_decodeAll_ok _ texts hd
  · intro h
    obtain ⟨texts, ht⟩ := decodeAll_ok_of_forall _ h
    rw [ht] at hb
    unfold processEmail
    simp only [hb, Except.map]
    exact ⟨_, rfl⟩
  · intro r hr
    unfold processEmail at hr
    cases hd : decodeAll (decodedData message.payload) with
    | error e =>
      rw [hd] at hb
      simp only [hb, Except.map] at hr
      cases hr
    | ok texts =>
      rw [hd] at hb
      simp only [hb, Except.map, Except.ok.injEq] at hr
      refine ⟨texts, (decodeAll_ok_iff _ _).mp hd, ?_⟩
      rw [← hr]
  · intro h
    obtain ⟨e, he⟩ := decodeAll_error_of_exists _ h
    rw [he] at hb
    refine ⟨e, ?_⟩
    unfold processEmail
    simp only [hb, Except.map]

/-- C2 (amended) at two messages: one whose parts all decode gives a record with the
decoded body, one without any data gives a record with the empty body. -/
theorem processEmail_record_iff_witness :
    (∃ r, processEmail asciiLower parseNothing (messageOfParts sampleParts) = Except.ok r) ∧
    (processEmail asciiLower parseNothing (messageOfParts sampleParts)).map EmailRecord.body
      = Except.ok "Hello!".toList ∧
    (processEmail asciiLower parseNothing (messageOfParts [])).map EmailRecord.body
      = Except.ok [] :=
  ⟨(processEmail_record_iff asciiLower parseNothing (messageOfParts sampleParts)).1.mpr (by
      intro d hd
      have hdata : decodedData (messageOfParts sampleParts).payload
          = ["SGVsbG8=".toList, "IQ==".toList] := by decide
      rw [hdata] at hd
      simp only [List.mem_cons, List.mem_singleton, List.not_mem_nil, or_false] at hd
      rcases hd with rfl | rfl
      · exact ⟨"Hello".toList, by decide⟩
      · exact ⟨"!".toList, by decide⟩),
    by decide, by decide⟩

/-! ### The sort -/

theorem pairwise_orderedInsert {α : Type} (r : α → α → Prop) [DecidableRel r]
    (S : α → Prop) (Q : α → α → Prop)
    (h1 : ∀ x y, S x → S y → r x y → Q x y)
    (h2 : ∀ x y, S x → S y → ¬ r x y → Q y x)
    (ht : ∀ x y z, S x → S y → S z → Q x y → Q y z → Q x z)
    (x : α) (hx : S x) (l : List α) (hl : ∀ y ∈ l, S y) (hp : l.Pairwise Q) :
    (l.orderedInsert r x).Pairwise Q := by
  induction l with
  | nil => simp
  | cons y ys ih =>
    have hy : S y := hl y (List.mem_cons_self _ _)
    have hys : ∀ z ∈ ys, S z := fun z hz => hl z (List.mem_cons_of_mem _ hz)
    rw [List.pairwise_cons] at hp
    rw [List.orderedInsert]
    split
    · rename_i hxy
      refine List.Pairwise.cons ?_ (List.Pairwise.cons hp.1 hp.2)
      intro z hz
      rcases List.mem_cons.mp hz with rfl | hz
      · exact h1 x z hx hy hxy
      · exact ht x y z hx hy (hys z hz) (h1 x y hx hy hxy) (hp.1 z hz)
    · rename_i hxy
      refine List.Pairwise.cons ?_ (ih hys hp.2)
      intro z hz
      rcases (List.mem_orderedInsert r).mp hz with rfl | hz
      · exact h2 z y hx hy hxy
      · exact hp.1 z hz

/-- An insertion sort by `r` orders its result by every relation `Q` that is transitive
and that `r` decides, on the elements sorted. -/
theorem pairwise_insertionSort {α : Type} (r : α → α → Prop) [DecidableRel r]
    (S : α → Prop) (Q : α → α → Prop)
    (h1 : ∀ x y, S x → S y → r x y → Q x y)
    (h2 : ∀ x y, S x → S y → ¬ r x y → Q y x)
    (ht : ∀ x y z, S x → S y → S z → Q x y → Q y z → Q x z)
    (l : List α) (hl : ∀ y ∈ l, S y) : (l.insertionSort r).Pairwise Q := by
  induction l with
  | nil => simp
  | cons x xs ih =>
    rw [List.insertionSort]
    refine pairwise_orderedInsert r S Q h1 h2 ht x (hl x (List.mem_cons_self _ _)) _ ?_
      (ih (fun y hy => hl y (List.mem_cons_of_mem _ hy)))
    intro y hy
    exact hl y (List.mem_cons_of_mem _ ((List.mem_insertionSort r).mp hy))

theorem chain_orderedInsert {α : Type} (r : α → α → Prop) [DecidableRel r]
    (htot : ∀ x y, ¬ r x y → r y x) (x : α) (l : List α) (hc : l.Chain' r) :
    (l.orderedInsert r x).Chain' r := by
  induction l with
  | nil => simp
  | cons y ys ih =>
    rw [List.orderedInsert]
    split
    · rename_i hxy
      exact List.chain'_cons.mpr ⟨hxy, hc⟩
    · rename_i hxy
      rw [List.chain'_cons'] at hc ⊢
      refine ⟨?_, ih hc.2⟩
      intro z hz
      cases ys with
      | nil =>
        simp only [List.orderedInsert, List.head?_cons, Option.mem_def, Option.some.injEq] at hz
        subst hz
        exact htot _ _ hxy
      | cons w ws =>
        rw [List.orderedInsert] at hz
        split at hz
        · simp only [List.head?_cons, Option.mem_def, Option.some.injEq] at hz
          subst hz
          exact htot _ _ hxy
        · simp only [List.head?_cons, Option.mem_def, Option.some.injEq] at hz
          subst hz
          exact hc.1 _ (by simp)

/-- In the result of an insertion sort each element may stay before the next. -/
theorem chain_insertionSort {α : Type} (r : α → α → Prop) [DecidableRel r]
    (htot : ∀ x y, ¬ r x y → r y x) (l : List α) : (l.insertionSort r).Chain' r := by
  induction l with
  | nil => simp
  | cons x xs ih =>
    rw [List.insertionSort]
    exact chain_orderedInsert r htot x _ ih

/-- An insertion sort leaves a list unchanged in which each element may stay before the
next. -/
theorem insertionSort_of_chain {α : Type} (r : α → α → Prop) [DecidableRel r]
    (l : List α) (hc : l.Chain' r) : l.insertionSort r = l := by
  induction l with
  | nil => rfl
  | cons x xs ih =>
    rw [List.chain'_cons'] at hc
    rw [List.insertionSort, ih hc.2]
    cases xs with
    | nil => rfl
    | cons y ys =>
      rw [List.orderedInsert, if_pos (hc.1 y (by simp))]

/-! ### The comparator -/

theorem priorityOrder_injective (p q : Priority) (h : priorityOrder p = priorityOrder q) :
    p = q := by
  cases p <;> cases q <;> first | rfl | (exact absurd h (by decide))

theorem notAfter_total (a b : EmailRecord) (h : ¬ notAfter a b) : notAfter b a := by
  unfold notAfter sortCompare compareEmails at *
  by_cases hr : priorityOrder a.priority = priorityOrder b.priority
  · rw [if_neg (by simpa using hr)] at h
    rw [if_neg (by simpa using hr.symm)]
    cases ha : a.date <;> cases hb : b.date <;> simp_all
    omega
  · rw [if_pos hr] at h
    rw [if_pos (fun h' => hr h'.symm)]
    simp only [Option.getD_some] at h ⊢
    omega

theorem keepEmail_eq (cutoff : Option Int) (priorityFilter visibilityFilter : JSString)
    (email : EmailRecord) :
    keepEmail cutoff priorityFilter visibilityFilter email =
      (inTimeWindow cutoff email &&
        (matchesPriority priorityFilter email && matchesVisibility visibilityFilter email)) := by
  unfold keepEmail inTimeWindow matchesPriority matchesVisibility
  cases dateLt email.date cutoff
  · by_cases hp : priorityFilter = "all".toList
    · by_cases h1 : visibilityFilter = "unread".toList
      · subst h1; cases email.isRead <;> simp [hp]
      · by_cases h2 : visibilityFilter = "read".toList
        · subst h2; cases email.isRead <;> simp [hp]
        · by_cases h3 : visibilityFilter = "starred".toList
          · subst h3; cases email.isStarred <;> simp [hp]
          · simp_all
    · by_cases hq : email.priority.str = priorityFilter
      · by_cases h1 : visibilityFilter = "unread".toList
        · subst h1; cases email.isRead <;> simp [hp, hq]
        · by_cases h2 : visibilityFilter = "read".toList
          · subst h2; cases email.isRead <;> simp [hp, hq]
          · by_cases h3 : visibilityFilter = "starred".toList
            · subst h3; cases email.isStarred <;> simp [hp, hq]
            · simp_all
      · simp_all
  · simp

theorem mem_applyFilters (moveBack : Int → Int → Option Int) (now timeFilter : Int) (priorityFilter visibilityFilter : JSString)
    (emails : List EmailRecord) (email : EmailRecord) :
    email ∈ applyFilters moveBack now timeFilter priorityFilter visibilityFilter emails ↔
      email ∈ emails ∧
        keepEmail (cutoffDate moveBack now timeFilter) priorityFilter visibilityFilter email = true := by
  unfold applyFilters applyFiltersWith sortEmails
  rw [List.mem_insertionSort, List.mem_filter]

/-! ### Filtering -/

/-- C7 (as stated, refuted): the record built for a message without a Date header has an
invalid date; it is kept by the time filter although `date >= cutoff` is false for it. -/
theorem undated_record_kept :
    processEmail asciiLower parseNothing (messageOfParts []) = Except.ok undatedRecord ∧
    undatedRecord.date = none ∧
    applyFilters fixedOffsetBack sampleNow 30 "all".toList "all".toList [undatedRecord] = [undatedRecord] ∧
    dateGe undatedRecord.date (cutoffDate fixedOffsetBack sampleNow 30) = false := by
  decide

theorem inTimeWindow_iff (cutoff : Option Int) (email : EmailRecord) :
    inTimeWindow cutoff email = true ↔
      (email.date = none ∨ cutoff = none ∨
        ∃ d c, email.date = some d ∧ cutoff = some c ∧ d ≥ c) := by
  unfold inTimeWindow
  cases hd : email.date with
  | none => simp [dateLt]
  | some d =>
    cases hc : cutoff with
    | none => simp [dateLt]
    | some c => simp [dateLt]

theorem fixedOffsetBack_eq (now n : Int)
    (h : -maxTime ≤ now - n * msPerDay ∧ now - n * msPerDay ≤ maxTime) :
    fixedOffsetBack now n = some (now - n * msPerDay) := by
  unfold fixedOffsetBack
  rw [if_pos h]

/-- C7 (amended): with no constraint on priority or visibility, a record of the working
set is kept exactly when `date < cutoffDate` is false for it: when its date is invalid,
or (a case the page's controls do not reach) `cutoffDate` is invalid, or its date is
valid and at least `cutoffDate`.  Under any criteria a kept record satisfies the same
condition.  `cutoffDate` is the current instant moved back `timeFilter` calendar days of
the local time zone; where the zone's offset from UTC is the same at both instants it is
`now - timeFilter * 24 h`, and a dated record is then kept exactly when its date is at
least that instant. -/
theorem timeFilter_keeps_iff (moveBack : Int → Int → Option Int) (now timeFilter : Int)
    (emails : List EmailRecord) (email : EmailRecord) :
    (email ∈ applyFilters moveBack now timeFilter "all".toList "all".toList emails ↔
      email ∈ emails ∧
        (email.date = none ∨ cutoffDate moveBack now timeFilter = none ∨
          ∃ d c, email.date = some d ∧ cutoffDate moveBack now timeFilter = some c ∧ d ≥ c)) ∧
    (∀ priorityFilter visibilityFilter,
      email ∈ applyFilters moveBack now timeFilter priorityFilter visibilityFilter emails →
        (email.date = none ∨ cutoffDate moveBack now timeFilter = none ∨
          ∃ d c, email.date = some d ∧ cutoffDate moveBack now timeFilter = some c ∧ d ≥ c)) ∧
    (-maxTime ≤ now - timeFilter * msPerDay ∧ now - timeFilter * msPerDay ≤ maxTime →
      (email ∈ applyFilters fixedOffsetBack now timeFilter "all".toList "all".toList emails ↔
        email ∈ emails ∧
          (email.date = none ∨
            ∃ d, email.date = some d ∧ d ≥ now - timeFilter * msPerDay))) := by
  have hall : ∀ (back : Int → Int → Option Int),
      (email ∈ applyFilters back now timeFilter "all".toList "all".toList emails ↔
        email ∈ emails ∧ inTimeWindow (cutoffDate back now timeFilter) email = true) := by
    intro back
    rw [mem_applyFilters, keepEmail_eq]
    have h1 : matchesPriority "all".toList email = true := by simp [matchesPriority]
    have h2 : matchesVisibility "all".toList email = true := by
      unfold matchesVisibility
      rw [if_neg (by decide), if_neg (by decide), if_neg (by decide)]
    rw [h1, h2]
    simp
  refine ⟨?_, ?_, ?_⟩
  · rw [hall moveBack, inTimeWindow_iff]
  · intro pf vf h
    rw [mem_applyFilters, keepEmail_eq] at h
    rw [← inTimeWindow_iff]
    have := h.2
    simp only [Bool.and_eq_true] at this
    exact this.1
  · intro hrange
    rw [hall fixedOffsetBack, inTimeWindow_iff]
    unfold cutoffDate
    rw [fixedOffsetBack_eq now timeFilter hrange]
    constructor
    · rintro ⟨hm, h⟩
      refine ⟨hm, ?_⟩
      rcases h with h | h | ⟨d, c, hd, hc, hge⟩
      · exact Or.inl h
      · cases h
      · simp only [Option.some.injEq] at hc
        subst hc
        exact Or.inr ⟨d, hd, hge⟩
    · rintro ⟨hm, h⟩
      refine ⟨hm, ?_⟩
      rcases h with h | ⟨d, hd, hge⟩
      · exact Or.inl h
      · exact Or.inr (Or.inr ⟨d, _, hd, rfl, hge⟩)

/-- C7 (amended) at the end-to-end working set, in a zone of fixed offset: with a window
of 30 days the records dated one and ten days back are kept and the one dated ninety days
back is not. -/
theorem timeFilter_keeps_iff_witness :
    (sampleRecord "high" (some (90 * msPerDay)) Priority.high false false ∈
      applyFilters fixedOffsetBack sampleNow 30 "all".toList "all".toList sampleWorkingSet) ∧
    ¬ (sampleRecord "spam" (some (10 * msPerDay)) Priority.spam false false ∈
      applyFilters fixedOffsetBack sampleNow 30 "all".toList "all".toList sampleWorkingSet) :=
  ⟨((timeFilter_keeps_iff fixedOffsetBack sampleNow 30 sampleWorkingSet
      (sampleRecord "high" (some (90 * msPerDay)) Priority.high false false)).2.2
        (by decide)).mpr ⟨by decide, Or.inr ⟨_, rfl, by decide⟩⟩,
    fun h => absurd
      (((timeFilter_keeps_iff fixedOffsetBack sampleNow 30 sampleWorkingSet
        (sampleRecord "spam" (some (10 * msPerDay)) Priority.spam false false)).2.2
          (by decide)).mp h).2
      (by
        rintro (h | ⟨d, hd, hge⟩)
        · cases h
        · simp only [sampleRecord, Option.some.injEq] at hd
          subst hd
          revert hge
          decide)⟩

/-- C8: the list `applyFilters` produces is a rearrangement of the records of the working
set that pass the time filter, have the priority asked for and have the flags asked for:
each of them as often as in the working set, and no other record.  The same holds among
the records whose date is valid and at least the cutoff. -/
theorem applyFilters_perm (moveBack : Int → Int → Option Int) (now timeFilter : Int) (priorityFilter visibilityFilter : JSString)
    (emails : List EmailRecord) :
    (applyFilters moveBack now timeFilter priorityFilter visibilityFilter emails).Perm
      ((emails.filter (inTimeWindow (cutoffDate moveBack now timeFilter))).filter
        (fun e => matchesPriority priorityFilter e && matchesVisibility visibilityFilter e)) ∧
    ((applyFilters moveBack now timeFilter priorityFilter visibilityFilter emails).filter
        (fun e => dateGe e.date (cutoffDate moveBack now timeFilter))).Perm
      ((emails.filter (fun e => dateGe e.date (cutoffDate moveBack now timeFilter))).filter
        (fun e => matchesPriority priorityFilter e && matchesVisibility visibilityFilter e)) := by
  have hk : emails.filter
      (keepEmail (cutoffDate moveBack now timeFilter) priorityFilter visibilityFilter) =
      (emails.filter (inTimeWindow (cutoffDate moveBack now timeFilter))).filter
        (fun e => matchesPriority priorityFilter e && matchesVisibility visibilityFilter e) := by
    rw [List.filter_filter]
    congr 1
    funext e
    rw [keepEmail_eq, Bool.and_comm]
  have h1 : (applyFilters moveBack now timeFilter priorityFilter visibilityFilter emails).Perm
      ((emails.filter (inTimeWindow (cutoffDate moveBack now timeFilter))).filter
        (fun e => matchesPriority priorityFilter e && matchesVisibility visibilityFilter e)) := by
    unfold applyFilters applyFiltersWith sortEmails
    rw [← hk]
    exact List.perm_insertionSort _ _
  refine ⟨h1, ?_⟩
  refine (h1.filter _).trans ?_
  simp only [List.filter_filter]
  apply List.Perm.of_eq
  apply List.filter_congr
  intro e _
  have hge : dateGe e.date (cutoffDate moveBack now timeFilter) = true →
      inTimeWindow (cutoffDate moveBack now timeFilter) e = true := by
    unfold inTimeWindow
    cases e.date with
    | none => simp [dateGe]
    | some d =>
      cases cutoffDate moveBack now timeFilter with
      | none => simp [dateGe]
      | some c =>
        simp only [dateGe, dateLt, decide_eq_true_eq, Bool.not_eq_true',
          decide_eq_false_iff_not]
        omega
  cases hd : dateGe e.date (cutoffDate moveBack now timeFilter)
  · simp
  · simp [hge hd]

set_option maxRecDepth 100000 in
/-- C8 at the end-to-end example: priorities low, high, spam, visibility `unread`,
priority `all`, 30 days, only the high record unread and in range. -/
theorem applyFilters_perm_witness :
    applyFilters fixedOffsetBack sampleNow 30 "all".toList "unread".toList sampleWorkingSet =
      [sampleRecord "high" (some (90 * msPerDay)) Priority.high false false] := by
  have h := (applyFilters_perm fixedOffsetBack sampleNow 30 "all".toList "unread".toList sampleWorkingSet).1
  have hf : (sampleWorkingSet.filter (inTimeWindow (cutoffDate fixedOffsetBack sampleNow 30))).filter
      (fun e => matchesPriority "all".toList e && matchesVisibility "unread".toList e) =
      [sampleRecord "high" (some (90 * msPerDay)) Priority.high false false] := by decide
  rw [hf] at h
  exact List.perm_singleton.mp h

/-! ### Ordering -/

/-- C6 (as stated, refuted): of three records of the same tier, dated 100, undated and
dated 200 in that order, the filtered list keeps that order, so the record dated 100
comes before the more recent record dated 200. -/
theorem applyFilters_order_broken_by_invalid_date :
    applyFilters fixedOffsetBack 1000 30 "all".toList "all".toList mixedDates = mixedDates ∧
    ¬ (applyFilters fixedOffsetBack 1000 30 "all".toList "all".toList mixedDates).Pairwise ComesFirst := by
  decide

/-- C6 (amended): for any two records of the list `applyFilters` produces, the one
placed first is not of a lower tier, so of two records of different tiers the one of the
higher tier comes first whatever the dates; and of two records of the same tier the one
placed first is not the older, provided every record of that tier in the list has a
valid date. -/
theorem applyFilters_order (moveBack : Int → Int → Option Int) (now timeFilter : Int) (priorityFilter visibilityFilter : JSString)
    (emails : List EmailRecord) :
    (applyFilters moveBack now timeFilter priorityFilter visibilityFilter emails).Pairwise
      (fun a b => priorityOrder b.priority ≤ priorityOrder a.priority ∧
        (a.priority = b.priority →
          TierDated (applyFilters moveBack now timeFilter priorityFilter visibilityFilter emails)
            a.priority →
          ∀ da db, a.date = some da → b.date = some db → db ≤ da)) := by
  suffices h : ∀ out : List EmailRecord,
      (∀ e, e ∈ emails.filter
        (keepEmail (cutoffDate moveBack now timeFilter) priorityFilter visibilityFilter) → e ∈ out) →
      (List.insertionSort notAfter (emails.filter
        (keepEmail (cutoffDate moveBack now timeFilter) priorityFilter visibilityFilter))).Pairwise
        (fun a b => priorityOrder b.priority ≤ priorityOrder a.priority ∧
          (a.priority = b.priority → TierDated out a.priority →
            ∀ da db, a.date = some da → b.date = some db → db ≤ da)) from
    h _ (fun e he => (List.mem_insertionSort _).mpr he)
  intro out hmem
  refine pairwise_insertionSort notAfter (fun e => e ∈ out) _ ?_ ?_ ?_ _ hmem
  · intro x y _ _ hxy
    unfold notAfter sortCompare compareEmails at hxy
    by_cases hr : priorityOrder x.priority = priorityOrder y.priority
    · refine ⟨by omega, ?_⟩
      intro _ _ da db hda hdb
      rw [if_neg (by simpa using hr), hda, hdb] at hxy
      simp only [Option.getD_some] at hxy
      omega
    · rw [if_pos hr] at hxy
      simp only [Option.getD_some] at hxy
      refine ⟨by omega, ?_⟩
      intro hp
      rw [hp] at hr
      exact absurd rfl hr
  · intro x y _ _ hxy
    unfold notAfter sortCompare compareEmails at hxy
    by_cases hr : priorityOrder x.priority = priorityOrder y.priority
    · refine ⟨by omega, ?_⟩
      intro _ _ dy dx hdy hdx
      rw [if_neg (by simpa using hr), hdy, hdx] at hxy
      simp only [Option.getD_some] at hxy
      omega
    · rw [if_pos hr] at hxy
      simp only [Option.getD_some] at hxy
      refine ⟨by omega, ?_⟩
      intro hp
      rw [hp] at hr
      exact absurd rfl hr
  · intro x y z _ hy _ hxy hyz
    refine ⟨le_trans hyz.1 hxy.1, ?_⟩
    intro hp hdated dx dz hdx hdz
    have hxz : priorityOrder x.priority = priorityOrder z.priority := by rw [hp]
    have hxy' : x.priority = y.priority :=
      priorityOrder_injective _ _ (le_antisymm (by rw [hxz]; exact hyz.1) hxy.1)
    have hyz' : y.priority = z.priority := by rw [← hxy', hp]
    cases hdy : y.date with
    | none => exact absurd hdy (hdated y hy hxy'.symm)
    | some dy =>
      have h1 := hxy.2 hxy' hdated dx dy hdx hdy
      have h2 := hyz.2 hyz' (by rw [← hxy']; exact hdated) dy dz hdy hdz
      omega

/-- C6 (amended) at the end-to-end working set, whose records all have valid dates: the
high record comes first although it is older than the low one. -/
theorem applyFilters_order_witness :
    applyFilters fixedOffsetBack sampleNow 365 "all".toList "all".toList sampleWorkingSet =
      [sampleRecord "high" (some (90 * msPerDay)) Priority.high false false,
        sampleRecord "low" (some (99 * msPerDay)) Priority.low true false,
        sampleRecord "spam" (some (10 * msPerDay)) Priority.spam false false] ∧
    (applyFilters fixedOffsetBack sampleNow 365 "all".toList "all".toList sampleWorkingSet).Pairwise
      (fun a b => priorityOrder b.priority ≤ priorityOrder a.priority ∧
        (a.priority = b.priority →
          TierDated (applyFilters fixedOffsetBack sampleNow 365 "all".toList "all".toList sampleWorkingSet)
            a.priority →
          ∀ da db, a.date = some da → b.date = some db → db ≤ da)) :=
  ⟨by decide, applyFilters_order fixedOffsetBack sampleNow 365 "all".toList "all".toList sampleWorkingSet⟩

/-- With the insertion sort for the engine's sort the filtered list is a fixed point of
`applyFilters`, with or without invalid dates. -/
theorem applyFilters_fixed_point (moveBack : Int → Int → Option Int) (now timeFilter : Int)
    (priorityFilter visibilityFilter : JSString) (emails : List EmailRecord) :
    applyFilters moveBack now timeFilter priorityFilter visibilityFilter
        (applyFilters moveBack now timeFilter priorityFilter visibilityFilter emails) =
      applyFilters moveBack now timeFilter priorityFilter visibilityFilter emails := by
  have hkeep : (applyFilters moveBack now timeFilter priorityFilter visibilityFilter emails).filter
      (keepEmail (cutoffDate moveBack now timeFilter) priorityFilter visibilityFilter) =
      applyFilters moveBack now timeFilter priorityFilter visibilityFilter emails := by
    rw [List.filter_eq_self]
    intro e he
    exact ((mem_applyFilters _ _ _ _ _ _ _).mp he).2
  have hchain : (applyFilters moveBack now timeFilter priorityFilter visibilityFilter emails).Chain'
      notAfter := by
    unfold applyFilters applyFiltersWith sortEmails
    exact chain_insertionSort notAfter notAfter_total _
  show sortEmails ((applyFilters moveBack now timeFilter priorityFilter visibilityFilter emails).filter
      (keepEmail (cutoffDate moveBack now timeFilter) priorityFilter visibilityFilter)) = _
  rw [hkeep]
  exact insertionSort_of_chain notAfter _ hchain

/-! ### The contract of the engine's sort -/

theorem sortCompare_swap (a b : EmailRecord) : sortCompare b a = - sortCompare a b := by
  unfold sortCompare compareEmails
  by_cases hr : priorityOrder a.priority = priorityOrder b.priority
  · rw [if_neg (by simpa using hr.symm), if_neg (by simpa using hr)]
    cases a.date <;> cases b.date <;> simp
  · rw [if_pos (fun h => hr h.symm), if_pos hr]
    simp

theorem sortCompare_dated (a b : EmailRecord) (da db : Int) (ha : a.date = some da)
    (hb : b.date = some db) :
    sortCompare a b =
      if priorityOrder a.priority = priorityOrder b.priority then db - da
      else priorityOrder b.priority - priorityOrder a.priority := by
  unfold sortCompare compareEmails
  by_cases hr : priorityOrder a.priority = priorityOrder b.priority
  · rw [if_neg (by simpa using hr), if_pos hr, ha, hb]
    rfl
  · rw [if_pos hr, if_neg hr]
    rfl

theorem notAfter_refl (a : EmailRecord) : notAfter a a := by
  have := sortCompare_swap a a
  unfold notAfter
  omega

theorem tied_iff (a b : EmailRecord) : tied a b = true ↔ notAfter a b ∧ notAfter b a := by
  have := sortCompare_swap a b
  unfold tied notAfter
  rw [decide_eq_true_eq]
  omega

/-- Records that are valid-dated are ordered consistently by the comparator. -/
theorem consistent_of_dated (l : List EmailRecord) (h : ∀ e ∈ l, e.date ≠ none) :
    Consistent l := by
  intro a ha b hb c hc hab hbc
  obtain ⟨da, hda⟩ := Option.ne_none_iff_exists'.mp (h a ha)
  obtain ⟨db, hdb⟩ := Option.ne_none_iff_exists'.mp (h b hb)
  obtain ⟨dc, hdc⟩ := Option.ne_none_iff_exists'.mp (h c hc)
  unfold notAfter at *
  rw [sortCompare_dated a b da db hda hdb] at hab
  rw [sortCompare_dated b c db dc hdb hdc] at hbc
  rw [sortCompare_dated a c da dc hda hdc]
  split_ifs at hab hbc ⊢ <;> omega

/-- Two rearrangements of the same records that are both ordered by the comparator and
keep tied records in the same order are the same list. -/
theorem eq_of_sorted_of_ties (l₁ l₂ : List EmailRecord) (hp : l₁.Perm l₂)
    (h₁ : l₁.Pairwise notAfter) (h₂ : l₂.Pairwise notAfter)
    (ht : ∀ a ∈ l₁, l₁.filter (tied a) = l₂.filter (tied a)) : l₁ = l₂ := by
  induction l₁ generalizing l₂ with
  | nil => exact (List.nil_perm.mp hp).symm
  | cons x t₁ ih =>
    cases l₂ with
    | nil => exact absurd (List.perm_nil.mp hp) (by simp)
    | cons y t₂ =>
      rw [List.pairwise_cons] at h₁ h₂
      have hxy : notAfter x y := by
        rcases List.mem_cons.mp (hp.symm.subset (List.mem_cons_self y t₂)) with h | h
        · rw [h]; exact notAfter_refl x
        · exact h₁.1 y h
      have hyx : notAfter y x := by
        rcases List.mem_cons.mp (hp.subset (List.mem_cons_self x t₁)) with h | h
        · rw [h]; exact notAfter_refl y
        · exact h₂.1 x h
      have hx := ht x (List.mem_cons_self _ _)
      rw [List.filter_cons_of_pos ((tied_iff x x).mpr ⟨notAfter_refl x, notAfter_refl x⟩),
        List.filter_cons_of_pos ((tied_iff x y).mpr ⟨hxy, hyx⟩)] at hx
      have hhead : x = y := (List.cons.inj hx).1
      subst hhead
      have htail : t₁ = t₂ := by
        refine ih t₂ (List.Perm.cons_inv hp) h₁.2 h₂.2 ?_
        intro a ha
        have h := ht a (List.mem_cons_of_mem _ ha)
        cases hax : tied a x with
        | true =>
          rw [List.filter_cons_of_pos hax, List.filter_cons_of_pos hax] at h
          exact (List.cons.inj h).2
        | false =>
          rw [List.filter_cons_of_neg (by simp [hax]), List.filter_cons_of_neg (by simp [hax])]
            at h
          exact h
      rw [htail]

theorem notAfter_of_tied (S : EmailRecord → Prop)
    (hcons : ∀ a b c, S a → S b → S c → notAfter a b → notAfter b c → notAfter a c)
    (a x y : EmailRecord) (ha : S a) (hx : S x) (hy : S y)
    (h1 : tied a x = true) (h2 : tied a y = true) : notAfter x y :=
  hcons x a y hx ha hy ((tied_iff a x).mp h1).2 ((tied_iff a y).mp h2).1

theorem ties_orderedInsert (S : EmailRecord → Prop)
    (hcons : ∀ a b c, S a → S b → S c → notAfter a b → notAfter b c → notAfter a c)
    (a x : EmailRecord) (ha : S a) (hx : S x) (s : List EmailRecord) (hs : ∀ y ∈ s, S y) :
    (s.orderedInsert notAfter x).filter (tied a) = (x :: s).filter (tied a) := by
  induction s with
  | nil => rfl
  | cons y ys ih =>
    have hy : S y := hs y (List.mem_cons_self _ _)
    have ih' := ih (fun z hz => hs z (List.mem_cons_of_mem _ hz))
    rw [List.orderedInsert]
    split
    · rfl
    · rename_i hxy
      cases hax : tied a x with
      | true =>
        cases hay : tied a y with
        | true => exact absurd (notAfter_of_tied S hcons a x y ha hx hy hax hay) hxy
        | false =>
          rw [List.filter_cons_of_neg (by simp [hay]), ih', List.filter_cons_of_pos hax,
            List.filter_cons_of_pos hax, List.filter_cons_of_neg (by simp [hay])]
      | false =>
        rw [List.filter_cons_of_neg (l := y :: ys) (by simp [hax])]
        rw [List.filter_cons_of_neg (l := ys) (by simp [hax])] at ih'
        cases hay : tied a y with
        | true => rw [List.filter_cons_of_pos hay, List.filter_cons_of_pos hay, ih']
        | false =>
          rw [List.filter_cons_of_neg (by simp [hay]), List.filter_cons_of_neg (by simp [hay]),
            ih']

/-- The insertion sort meets the contract of the engine's sort. -/
theorem sortsLike_sortEmails : SortsLike sortEmails := by
  intro l hl
  have hcons : ∀ a b c, a ∈ l → b ∈ l → c ∈ l → notAfter a b → notAfter b c → notAfter a c :=
    fun a b c ha hb hc => hl a ha b hb c hc
  refine ⟨List.perm_insertionSort _ _, ?_, ?_⟩
  · exact pairwise_insertionSort notAfter (fun e => e ∈ l) notAfter
      (fun _ _ _ _ h => h) (fun x y _ _ h => notAfter_total x y h) hcons l (fun _ h => h)
  · intro a ha
    unfold sortEmails
    suffices h : ∀ m : List EmailRecord, (∀ e ∈ m, e ∈ l) →
        (m.insertionSort notAfter).filter (tied a) = m.filter (tied a) from h l (fun _ h => h)
    intro m
    induction m with
    | nil => intro _; rfl
    | cons x xs ih =>
      intro hm
      have hxs : ∀ e ∈ xs, e ∈ l := fun e he => hm e (List.mem_cons_of_mem _ he)
      rw [List.insertionSort,
        ties_orderedInsert (fun e => e ∈ l) hcons a x ha (hm x (List.mem_cons_self _ _)) _
          (fun y hy => hxs y ((List.mem_insertionSort _).mp hy))]
      cases hax : tied a x with
      | true => rw [List.filter_cons_of_pos hax, List.filter_cons_of_pos hax, ih hxs]
      | false =>
        rw [List.filter_cons_of_neg (by simp [hax]), List.filter_cons_of_neg (by simp [hax]),
          ih hxs]

/-! ### The merge sort -/

theorem mergeRuns_perm (fuel : Nat) (xs ys : List EmailRecord) :
    (mergeRuns fuel xs ys).Perm (xs ++ ys) := by
  induction fuel generalizing xs ys with
  | zero => rw [mergeRuns]
  | succ n ih =>
    cases xs with
    | nil => simp [mergeRuns]
    | cons x xs =>
      cases ys with
      | nil => simp [mergeRuns]
      | cons y ys =>
        rw [mergeRuns]
        split
        · exact (ih xs (y :: ys)).cons x
        · exact ((ih (x :: xs) ys).cons y).trans List.perm_middle.symm

theorem mergeRuns_sorted (S : EmailRecord → Prop)
    (hcons : ∀ a b c, S a → S b → S c → notAfter a b → notAfter b c → notAfter a c)
    (fuel : Nat) (xs ys : List EmailRecord) (hxs : ∀ e ∈ xs, S e) (hys : ∀ e ∈ ys, S e)
    (sx : xs.Pairwise notAfter) (sy : ys.Pairwise notAfter)
    (hn : xs.length + ys.length ≤ fuel) : (mergeRuns fuel xs ys).Pairwise notAfter := by
  induction fuel generalizing xs ys with
  | zero =>
    have h1 : xs = [] := List.length_eq_zero.mp (by omega)
    have h2 : ys = [] := List.length_eq_zero.mp (by omega)
    subst h1 h2
    simp [mergeRuns]
  | succ n ih =>
    cases xs with
    | nil => simpa [mergeRuns] using sy
    | cons x xs =>
      cases ys with
      | nil => simpa [mergeRuns] using sx
      | cons y ys =>
        have hx : S x := hxs x (List.mem_cons_self _ _)
        have hy : S y := hys y (List.mem_cons_self _ _)
        have hxs' : ∀ e ∈ xs, S e := fun e he => hxs e (List.mem_cons_of_mem _ he)
        have hys' : ∀ e ∈ ys, S e := fun e he => hys e (List.mem_cons_of_mem _ he)
        rw [List.pairwise_cons] at sx sy
        simp only [List.length_cons] at hn
        rw [mergeRuns]
        split
        · rename_i hxy
          refine List.Pairwise.cons ?_
            (ih xs (y :: ys) hxs' hys sx.2 (List.Pairwise.cons sy.1 sy.2)
              (by simp only [List.length_cons]; omega))
          intro z hz
          rcases List.mem_append.mp ((mergeRuns_perm n xs (y :: ys)).subset hz) with h | h
          · exact sx.1 z h
          · rcases List.mem_cons.mp h with h | h
            · rw [h]; exact hxy
            · exact hcons x y z hx hy (hys' z h) hxy (sy.1 z h)
        · rename_i hxy
          have hyx : notAfter y x := notAfter_total x y hxy
          refine List.Pairwise.cons ?_
            (ih (x :: xs) ys hxs hys' (List.Pairwise.cons sx.1 sx.2) sy.2
              (by simp only [List.length_cons]; omega))
          intro z hz
          rcases List.mem_append.mp ((mergeRuns_perm n (x :: xs) ys).subset hz) with h | h
          · rcases List.mem_cons.mp h with h | h
            · rw [h]; exact hyx
            · exact hcons y x z hy hx (hxs' z h) hyx (sx.1 z h)
          · exact sy.1 z h

theorem mergeRuns_ties (S : EmailRecord → Prop)
    (hcons : ∀ a b c, S a → S b → S c → notAfter a b → notAfter b c → notAfter a c)
    (a : EmailRecord) (ha : S a) (fuel : Nat) (xs ys : List EmailRecord)
    (hxs : ∀ e ∈ xs, S e) (hys : ∀ e ∈ ys, S e) (sx : xs.Pairwise notAfter) :
    (mergeRuns fuel xs ys).filter (tied a) = xs.filter (tied a) ++ ys.filter (tied a) := by
  induction fuel generalizing xs ys with
  | zero => rw [mergeRuns, List.filter_append]
  | succ n ih =>
    cases xs with
    | nil => simp [mergeRuns]
    | cons x xs =>
      cases ys with
      | nil => simp [mergeRuns]
      | cons y ys =>
        have hx : S x := hxs x (List.mem_cons_self _ _)
        have hy : S y := hys y (List.mem_cons_self _ _)
        have hxs' : ∀ e ∈ xs, S e := fun e he => hxs e (List.mem_cons_of_mem _ he)
        have hys' : ∀ e ∈ ys, S e := fun e he => hys e (List.mem_cons_of_mem _ he)
        rw [mergeRuns]
        split
        · have h := ih xs (y :: ys) hxs' hys (List.pairwise_cons.mp sx).2
          cases hax : tied a x with
          | true =>
            rw [List.filter_cons_of_pos hax, h, List.filter_cons_of_pos hax, List.cons_append]
          | false =>
            rw [List.filter_cons_of_neg (by simp [hax]), h,
              List.filter_cons_of_neg (l := xs) (by simp [hax])]
        · rename_i hxy
          have h := ih (x :: xs) ys hxs hys' sx
          cases hay : tied a y with
          | true =>
            have hnone : (x :: xs).filter (tied a) = [] := by
              rw [List.filter_eq_nil_iff]
              intro z hz hz'
              have hxz : notAfter x z := by
                rcases List.mem_cons.mp hz with h | h
                · rw [h]; exact notAfter_refl x
                · exact (List.pairwise_cons.mp sx).1 z h
              exact hxy (hcons x z y hx (hxs z hz) hy hxz
                (notAfter_of_tied S hcons a z y ha (hxs z hz) hy hz' hay))
            rw [List.filter_cons_of_pos hay, h, hnone, List.filter_cons_of_pos hay]
            rfl
          | false =>
            rw [List.filter_cons_of_neg (by simp [hay]), h,
              List.filter_cons_of_neg (l := ys) (by simp [hay])]

theorem mergeSortFuel_perm (fuel : Nat) (l : List EmailRecord) :
    (mergeSortFuel fuel l).Perm l := by
  induction fuel generalizing l with
  | zero => rw [mergeSortFuel]
  | succ n ih =>
    rw [mergeSortFuel]
    split
    · exact List.Perm.refl l
    · refine (mergeRuns_perm _ _ _).trans ?_
      have h := (ih (l.take (l.length / 2))).append (ih (l.drop (l.length / 2)))
      rwa [List.take_append_drop] at h

theorem pairwise_of_length_le_one (l : List EmailRecord) (h : l.length ≤ 1) :
    l.Pairwise notAfter := by
  cases l with
  | nil => exact List.Pairwise.nil
  | cons x xs =>
    cases xs with
    | nil => exact List.pairwise_singleton _ _
    | cons y ys => simp only [List.length_cons] at h; omega

theorem mergeSortFuel_sorted (S : EmailRecord → Prop)
    (hcons : ∀ a b c, S a → S b → S c → notAfter a b → notAfter b c → notAfter a c)
    (fuel : Nat) (l : List EmailRecord) (hl : ∀ e ∈ l, S e) (hn : l.length ≤ fuel + 1) :
    (mergeSortFuel fuel l).Pairwise notAfter := by
  induction fuel generalizing l with
  | zero =>
    rw [mergeSortFuel]
    exact pairwise_of_length_le_one l (by omega)
  | succ n ih =>
    rw [mergeSortFuel]
    split
    · exact pairwise_of_length_le_one l (by omega)
    · have ht : ∀ e ∈ l.take (l.length / 2), S e := fun e he => hl e (List.mem_of_mem_take he)
      have hd : ∀ e ∈ l.drop (l.length / 2), S e := fun e he => hl e (List.mem_of_mem_drop he)
      refine mergeRuns_sorted S hcons _ _ _
        (fun e he => ht e ((mergeSortFuel_perm n _).subset he))
        (fun e he => hd e ((mergeSortFuel_perm n _).subset he))
        (ih _ ht (by rw [List.length_take]; omega))
        (ih _ hd (by rw [List.length_drop]; omega)) ?_
      rw [(mergeSortFuel_perm n _).length_eq, (mergeSortFuel_perm n _).length_eq,
        List.length_take, List.length_drop]
      omega

theorem mergeSortFuel_ties (S : EmailRecord → Prop)
    (hcons : ∀ a b c, S a → S b → S c → notAfter a b → notAfter b c → notAfter a c)
    (a : EmailRecord) (ha : S a) (fuel : Nat) (l : List EmailRecord) (hl : ∀ e ∈ l, S e)
    (hn : l.length ≤ fuel + 1) : (mergeSortFuel fuel l).filter (tied a) = l.filter (tied a) := by
  induction fuel generalizing l with
  | zero => rw [mergeSortFuel]
  | succ n ih =>
    rw [mergeSortFuel]
    split
    · rfl
    · have ht : ∀ e ∈ l.take (l.length / 2), S e := fun e he => hl e (List.mem_of_mem_take he)
      have hd : ∀ e ∈ l.drop (l.length / 2), S e := fun e he => hl e (List.mem_of_mem_drop he)
      rw [mergeRuns_ties S hcons a ha _ _ _
          (fun e he => ht e ((mergeSortFuel_perm n _).subset he))
          (fun e he => hd e ((mergeSortFuel_perm n _).subset he))
          (mergeSortFuel_sorted S hcons n _ ht (by rw [List.length_take]; omega)),
        ih _ ht (by rw [List.length_take]; omega), ih _ hd (by rw [List.length_drop]; omega),
        ← List.filter_append, List.take_append_drop]

/-- The merge sort meets the contract of the engine's sort. -/
theorem sortsLike_mergeSortEmails : SortsLike mergeSortEmails := by
  intro l hl
  have hcons : ∀ a b c, a ∈ l → b ∈ l → c ∈ l → notAfter a b → notAfter b c → notAfter a c :=
    fun a b c ha hb hc => hl a ha b hb c hc
  unfold mergeSortEmails
  exact ⟨mergeSortFuel_perm _ _,
    mergeSortFuel_sorted (fun e => e ∈ l) hcons _ l (fun _ h => h) (by omega),
    fun a ha => mergeSortFuel_ties (fun e => e ∈ l) hcons a ha _ l (fun _ h => h) (by omega)⟩

/-- On records the comparator is consistent on, every sort that meets the contract gives
the list the insertion sort gives. -/
theorem sort_eq_sortEmails (sort : List EmailRecord → List EmailRecord) (hsort : SortsLike sort)
    (l : List EmailRecord) (hl : Consistent l) : sort l = sortEmails l := by
  obtain ⟨hp, hs, ht⟩ := hsort l hl
  obtain ⟨hp', hs', ht'⟩ := sortsLike_sortEmails l hl
  refine eq_of_sorted_of_ties _ _ (hp.trans hp'.symm) hs hs' ?_
  intro a ha
  rw [ht a (hp.subset ha), ht' a (hp.subset ha)]

/-! ### Idempotence -/

/-- C9 (as stated, refuted): the merge sort meets the contract of `Array.prototype.sort`,
and with it the filtered list of `staleOrder`, whose tier low holds an undated record
between records dated 100 and 200, is not a fixed point: filtered once the tier low
reads 100, undated, 200, filtered again it reads 200, 100, undated. -/
theorem applyFilters_not_idempotent :
    SortsLike mergeSortEmails ∧
    applyFiltersWith mergeSortEmails fixedOffsetBack 1000 30 "all".toList "all".toList staleOrder
      = [sampleRecord "a" (some 100) Priority.low true false,
          sampleRecord "x" none Priority.low true false,
          sampleRecord "b" (some 200) Priority.low true false,
          sampleRecord "s" (some 100) Priority.spam true false] ∧
    applyFiltersWith mergeSortEmails fixedOffsetBack 1000 30 "all".toList "all".toList
        (applyFiltersWith mergeSortEmails fixedOffsetBack 1000 30 "all".toList "all".toList
          staleOrder)
      = [sampleRecord "b" (some 200) Priority.low true false,
          sampleRecord "a" (some 100) Priority.low true false,
          sampleRecord "x" none Priority.low true false,
          sampleRecord "s" (some 100) Priority.spam true false] ∧
    applyFiltersWith mergeSortEmails fixedOffsetBack 1000 30 "all".toList "all".toList
        (applyFiltersWith mergeSortEmails fixedOffsetBack 1000 30 "all".toList "all".toList
          staleOrder)
      ≠ applyFiltersWith mergeSortEmails fixedOffsetBack 1000 30 "all".toList "all".toList
          staleOrder :=
  ⟨sortsLike_mergeSortEmails, by decide, by decide, by decide⟩

/-- C9 (amended): filtering is idempotent where the comparator is consistent on the
records kept, as it is when each of them has a valid date.  For every sort that meets
the contract of `Array.prototype.sort`, every working set, criteria and current instant,
`applyFilters` applied to its own result then gives that result again, as the same
list. -/
theorem applyFilters_idempotent_of_consistent (sort : List EmailRecord → List EmailRecord)
    (hsort : SortsLike sort) (moveBack : Int → Int → Option Int) (now timeFilter : Int)
    (priorityFilter visibilityFilter : JSString) (emails : List EmailRecord)
    (hc : Consistent (emails.filter
      (keepEmail (cutoffDate moveBack now timeFilter) priorityFilter visibilityFilter))) :
    applyFiltersWith sort moveBack now timeFilter priorityFilter visibilityFilter
        (applyFiltersWith sort moveBack now timeFilter priorityFilter visibilityFilter emails) =
      applyFiltersWith sort moveBack now timeFilter priorityFilter visibilityFilter emails := by
  simp only [applyFiltersWith]
  generalize hk : emails.filter
    (keepEmail (cutoffDate moveBack now timeFilter) priorityFilter visibilityFilter) = kept
    at hc ⊢
  obtain ⟨hp, hs, _⟩ := hsort kept hc
  have hmem : ∀ e ∈ sort kept, e ∈ kept := fun e he => hp.subset he
  have hkeep : (sort kept).filter
      (keepEmail (cutoffDate moveBack now timeFilter) priorityFilter visibilityFilter) =
      sort kept := by
    rw [List.filter_eq_self]
    intro e he
    have h := hmem e he
    rw [← hk] at h
    exact (List.mem_filter.mp h).2
  rw [hkeep]
  have hc2 : Consistent (sort kept) :=
    fun a ha b hb c hc' => hc a (hmem a ha) b (hmem b hb) c (hmem c hc')
  obtain ⟨hp2, hs2, ht2⟩ := hsort (sort kept) hc2
  exact eq_of_sorted_of_ties _ _ hp2 hs2 hs (fun a ha => ht2 a (hp2.subset ha))

/-- C9 (amended) at `datedOrder` with the merge sort: the records are dated, the tier
low comes out most recent first, and filtering again changes nothing. -/
theorem applyFilters_idempotent_of_consistent_witness :
    applyFiltersWith mergeSortEmails fixedOffsetBack 1000 30 "all".toList "all".toList datedOrder
      = [sampleRecord "b" (some 200) Priority.low true false,
          sampleRecord "x" (some 150) Priority.low true false,
          sampleRecord "a" (some 100) Priority.low true false,
          sampleRecord "s" (some 100) Priority.spam true false] ∧
    applyFiltersWith mergeSortEmails fixedOffsetBack 1000 30 "all".toList "all".toList
        (applyFiltersWith mergeSortEmails fixedOffsetBack 1000 30 "all".toList "all".toList
          datedOrder)
      = applyFiltersWith mergeSortEmails fixedOffsetBack 1000 30 "all".toList "all".toList
          datedOrder :=
  ⟨by decide,
    applyFilters_idempotent_of_consistent mergeSortEmails sortsLike_mergeSortEmails
      fixedOffsetBack 1000 30 "all".toList "all".toList datedOrder
      (consistent_of_dated _ (by decide))⟩

end EmailSummary
